import Mathlib

/-!
# go-tsz: XOR-delta compression of float64 series

A shallow embedding of `tsz.go` (`Series`, `Iter`) together with the bit stream it
writes to and reads from, and the properties of the encoder and the decoder.

A `float64` is represented by its 64-bit pattern (`math.Float64bits`), a natural
number below `2 ^ 64`; `math.Float64frombits` is the inverse bit cast.
-/

namespace Tsz

/-! ## Machine integers -/

/-- The sentinel `^uint64(0)` used by `New` for "no window yet". -/
def noWindow : Nat := 18446744073709551615

/-- Go conversion `int(x)` of a `uint64` on a 64-bit platform (two's complement). -/
def toInt (x : Nat) : Int :=
  if x % 18446744073709551616 < 9223372036854775808 then (x % 18446744073709551616 : Nat)
  else ((x % 18446744073709551616 : Nat) : Int) - 18446744073709551616

/-- Wrap-around of a signed 64-bit result. -/
def wrapInt (z : Int) : Int :=
  (z + 9223372036854775808) % 18446744073709551616 - 9223372036854775808

/-- Go `x << k` on `uint64` with an unsigned shift count: zero once `k >= 64`. -/
def shl64 (x k : Nat) : Nat :=
  if 64 ≤ k then 0 else (x <<< k) % 18446744073709551616

/-- Go `x >> k` on `uint64` with an unsigned shift count: zero once `k >= 64`. -/
def shr64 (x k : Nat) : Nat :=
  if 64 ≤ k then 0 else x >>> k

/-- Go `a - b` on `uint64`. -/
def sub64 (a b : Nat) : Nat :=
  (a + 18446744073709551616 - b % 18446744073709551616) % 18446744073709551616

/-! ## Leading and trailing zero counts (`bits.Clz`, `bits.Ctz`) -/

/-- Number of binary digits of `x`, for `x < 2 ^ fuel`. -/
def bitLen : Nat → Nat → Nat
  | 0, _ => 0
  | fuel + 1, x => if x = 0 then 0 else bitLen fuel (x / 2) + 1

/-- Number of low zero digits of `x`, at most `fuel`. -/
def lowZeros : Nat → Nat → Nat
  | 0, _ => 0
  | fuel + 1, x => if x % 2 = 1 then 0 else lowZeros fuel (x / 2) + 1

/-- Modelled from the spec: `bits.Clz` of package go-bits, `count_leading_zero_bits`
over the 64-bit pattern (64 for a zero pattern). -/
def Clz (x : Nat) : Nat := 64 - bitLen 64 x

/-- Modelled from the spec: `bits.Ctz` of package go-bits, `count_trailing_zero_bits`
over the 64-bit pattern (64 for a zero pattern). -/
def Ctz (x : Nat) : Nat := lowZeros 64 x

/-! ## Bit stream I/O (package go-bitstream) -/

/-- The `n` low bits of `u`, most significant of the field first. -/
def bitsMSB (u : Nat) : Nat → List Bool
  | 0 => []
  | n + 1 => u.testBit n :: bitsMSB u n

/-- The unsigned number spelled by a list of bits, most significant first,
continuing the accumulator `acc`. -/
def valMSB (acc : Nat) : List Bool → Nat
  | [] => acc
  | b :: bs => valMSB (2 * acc + b.toNat) bs

/-- The eight bits of a byte, most significant first. -/
def byteBits (b : Nat) : List Bool := bitsMSB b 8

/-- The bits of a byte buffer in stream order. -/
def bytesBits (bs : List Nat) : List Bool := bs.flatMap byteBits

/-- The only error of the bit reader: `io.EOF`. -/
inductive Error where
  | EOF
  deriving DecidableEq, Repr

/-- Modelled from the spec: the bit writer of package go-bitstream, writing into the
byte buffer `out` (the `bytes.Buffer` of `Series`); `pending` holds the bits of the
current, not yet complete byte. -/
structure BitWriter where
  out : List Nat
  pending : List Bool
  deriving DecidableEq, Repr

/-- Modelled from the spec: `bitstream.NewWriter` over an empty buffer. -/
def NewWriter : BitWriter := { out := [], pending := [] }

/-- Modelled from the spec: `write_bit(b)` appends one bit; a byte that becomes
complete goes to the buffer. -/
def BitWriter.WriteBit (w : BitWriter) (bit : Bool) : BitWriter :=
  let p := w.pending ++ [bit]
  if 8 ≤ p.length then { out := w.out ++ [valMSB 0 p], pending := [] }
  else { out := w.out, pending := p }

/-- Modelled from the spec: `write_bits(value, width)` appends the low `width` bits of
`value`, most significant of the field first; a width that is not positive writes
nothing. -/
def BitWriter.WriteBits (w : BitWriter) (u : Nat) (nbits : Int) : BitWriter :=
  (bitsMSB u nbits.toNat).foldl BitWriter.WriteBit w

/-- Modelled from the spec: `flush(pad_bit)` pads the current byte to completion with
`pad_bit` repeated; nothing is written when no byte is in progress. -/
def BitWriter.Flush (w : BitWriter) (bit : Bool) : BitWriter :=
  if w.pending = [] then w
  else (List.replicate (8 - w.pending.length) bit).foldl BitWriter.WriteBit w

/-- Modelled from the spec: the bit reader of package go-bitstream; `bits` are the
bits of the byte buffer that have not been read yet. -/
structure BitReader where
  bits : List Bool
  deriving DecidableEq, Repr

/-- Modelled from the spec: `bitstream.NewReader` over a byte buffer. -/
def NewReader (b : List Nat) : BitReader := { bits := bytesBits b }

/-- Modelled from the spec: `read_bit()` returns the next bit or fails with
`EndOfStream` if no bits remain. -/
def BitReader.ReadBit (r : BitReader) : Except Error (Bool × BitReader) :=
  match r.bits with
  | [] => .error .EOF
  | b :: rest => .ok (b, { bits := rest })

/-- Modelled from the spec: `read_bits(width)` returns the next `width` bits as an
unsigned integer, most significant first, and fails with `EndOfStream` if the stream
is exhausted before `width` bits are available; a width that is not positive reads
nothing and returns 0. A failed read returns no reader: `Iter.Next` records the error
and never reads again, so the position after a failure is not observable. -/
def BitReader.ReadBits (r : BitReader) (nbits : Int) : Except Error (Nat × BitReader) :=
  if r.bits.length < nbits.toNat then .error .EOF
  else .ok (valMSB 0 (r.bits.take nbits.toNat), { bits := r.bits.drop nbits.toNat })

/-! ## The encoder: `Series` -/

/-- The encoder state of `tsz.go`; `bw.out` is the byte buffer `buf`. -/
structure Series where
  val : Nat
  leading : Nat
  trailing : Nat
  bw : BitWriter
  first : Bool
  finished : Bool
  deriving DecidableEq, Repr

/-- `New()`: no sample yet, `leading` set to the all-ones sentinel. -/
def New : Series :=
  { val := 0, leading := noWindow, trailing := 0, bw := NewWriter,
    first := true, finished := false }

/-- `Series.Bytes`: the bytes written to the buffer so far. -/
def Series.Bytes (s : Series) : List Nat := s.bw.out

/-- `Series.Finish`: flush with zero bits, once. -/
def Series.Finish (s : Series) : Series :=
  if !s.finished then { s with bw := s.bw.Flush false, finished := true }
  else s

/-- `Series.Push`: the first sample verbatim, then one record per sample. -/
def Series.Push (s : Series) (v : Nat) : Series :=
  if s.first then
    { s with val := v, first := false, bw := s.bw.WriteBits v 64 }
  else
    let vDelta := v ^^^ s.val
    if vDelta = 0 then
      { s with bw := s.bw.WriteBit false, val := v }
    else
      let bw1 := s.bw.WriteBit true
      let leading := Clz vDelta
      let trailing := Ctz vDelta
      if s.leading ≠ noWindow ∧ leading ≥ s.leading ∧ trailing ≥ s.trailing then
        let bw2 := bw1.WriteBit false
        let bw3 := bw2.WriteBits (shr64 vDelta s.trailing)
          (wrapInt (64 - toInt s.leading - toInt s.trailing))
        { s with bw := bw3, val := v }
      else
        let bw2 := bw1.WriteBit true
        let bw3 := bw2.WriteBits leading 5
        let sigbits := sub64 (sub64 64 leading) trailing
        let bw4 := bw3.WriteBits sigbits 6
        let bw5 := bw4.WriteBits (shr64 vDelta trailing) (toInt sigbits)
        { s with leading := leading, trailing := trailing, bw := bw5, val := v }

/-! ## The decoder: `Iter` -/

/-- The decoder state of `tsz.go`. -/
structure Iter where
  val : Nat
  leading : Nat
  trailing : Nat
  br : BitReader
  first : Bool
  finished : Bool
  err : Option Error
  deriving DecidableEq, Repr

/-- `NewIterator`: read the first 64 bits as the initial value. -/
def NewIterator (b : List Nat) : Except Error Iter :=
  match (NewReader b).ReadBits 64 with
  | .error e => .error e
  | .ok (v, br) =>
    .ok { val := v, leading := 0, trailing := 0, br := br, first := true,
          finished := false, err := none }

/-- `Iter.Next`: the returned flag and the iterator after the call. -/
def Iter.Next (it : Iter) : Bool × Iter :=
  if it.err ≠ none ∨ it.finished then (false, it)
  else if it.first then (true, { it with first := false })
  else
    match it.br.ReadBit with
    | .error e => (false, { it with err := some e })
    | .ok (bit, br1) =>
      if bit = false then (true, { it with br := br1 })
      else
        match br1.ReadBit with
        | .error e => (false, { it with br := br1, err := some e })
        | .ok (bit2, br2) =>
          if bit2 = false then
            let mbits := toInt (sub64 (sub64 64 it.leading) it.trailing)
            match br2.ReadBits mbits with
            | .error e => (false, { it with br := br2, err := some e })
            | .ok (bits, br3) =>
              (true, { it with br := br3, val := it.val ^^^ shl64 bits it.trailing })
          else
            match br2.ReadBits 5 with
            | .error e => (false, { it with br := br2, err := some e })
            | .ok (lead, br3) =>
              match br3.ReadBits 6 with
              | .error e => (false, { it with br := br3, leading := lead, err := some e })
              | .ok (sig, br4) =>
                let trail := sub64 (sub64 64 lead) sig
                let mbits := toInt (sub64 (sub64 64 lead) trail)
                match br4.ReadBits mbits with
                | .error e =>
                  (false, { it with br := br4, leading := lead, trailing := trail,
                                    err := some e })
                | .ok (bits, br5) =>
                  (true, { it with br := br5, leading := lead, trailing := trail,
                                   val := it.val ^^^ shl64 bits trail })

/-- `Iter.Values`: the current value. -/
def Iter.Values (it : Iter) : Nat := it.val

/-- `Iter.Err`: the recorded error, if any. -/
def Iter.Err (it : Iter) : Option Error := it.err

/-- `Series.Iter`: an iterator over the bytes written so far; `NewIterator`'s error is
dropped, so the result is absent when it failed. -/
def Series.Iter (s : Series) : Option Iter :=
  match NewIterator s.Bytes with
  | .error _ => none
  | .ok it => some it

/-! ## Drivers -/

/-- Push the values in order. -/
def pushAll (s : Series) (vs : List Nat) : Series := vs.foldl Series.Push s

/-- The iterator after `n` calls of `Next`. -/
def nextN : Nat → Iter → Iter
  | 0, it => it
  | n + 1, it => nextN n it.Next.2

/-- What `n` successive calls of `Next` return, each paired with `Values()` and
`Err()` right after the call. -/
def trace : Nat → Iter → List (Bool × Nat × Option Error)
  | 0, _ => []
  | n + 1, it =>
    let r := it.Next
    (r.1, r.2.Values, r.2.Err) :: trace n r.2

/-! ## Specification vocabulary -/

/-- All bits written so far: the bytes of the buffer followed by the pending bits. -/
def BitWriter.stream (w : BitWriter) : List Bool := bytesBits w.out ++ w.pending

/-- The record `Push` writes for `v` in a state that already holds a sample. -/
def record (s : Series) (v : Nat) : List Bool :=
  let d := v ^^^ s.val
  if d = 0 then [false]
  else if s.leading ≠ noWindow ∧ Clz d ≥ s.leading ∧ Ctz d ≥ s.trailing then
    [true, false] ++
      bitsMSB (shr64 d s.trailing) (wrapInt (64 - toInt s.leading - toInt s.trailing)).toNat
  else
    [true, true] ++ bitsMSB (Clz d) 5 ++ bitsMSB (sub64 (sub64 64 (Clz d)) (Ctz d)) 6 ++
      bitsMSB (shr64 d (Ctz d)) (toInt (sub64 (sub64 64 (Clz d)) (Ctz d))).toNat

/-- The records written for `vs` in order, starting from state `s`. -/
def records (s : Series) : List Nat → List Bool
  | [] => []
  | v :: vs => record s v ++ records (s.Push v) vs

/-- A delta fits the header fields: it is zero, or it has fewer than 32 leading zero
bits and fewer than 64 significant bits. -/
def fits (d : Nat) : Bool :=
  d == 0 || (decide (Clz d < 32) && decide (sub64 (sub64 64 (Clz d)) (Ctz d) ≠ 64))

/-- Every delta between consecutive values fits, `prev` being the value before `vs`. -/
def fitsFrom (prev : Nat) : List Nat → Bool
  | [] => true
  | v :: vs => fits (v ^^^ prev) && fitsFrom v vs

/-- Every delta between consecutive values of the sequence fits the header fields. -/
def fitsAll : List Nat → Bool
  | [] => true
  | v :: vs => fitsFrom v vs

/-- The record `Push` writes for `v` in state `s` loses nothing in its header: it is not
a new-window record (the delta is zero or lies inside the window the encoder holds), or
the delta fits the header fields. -/
def headerFits (s : Series) (v : Nat) : Bool :=
  decide (s.leading ≠ noWindow ∧ Clz (v ^^^ s.val) ≥ s.leading ∧
    Ctz (v ^^^ s.val) ≥ s.trailing) || fits (v ^^^ s.val)

/-- Every record written for `vs`, starting from state `s`, has a header that fits. -/
def headersFitFrom (s : Series) : List Nat → Bool
  | [] => true
  | v :: vs => headerFits s v && headersFitFrom (s.Push v) vs

/-- Every new-window record written when the sequence is pushed into a fresh series has
a delta with fewer than 32 leading zero bits and fewer than 64 significant bits. -/
def headersFit : List Nat → Bool
  | [] => true
  | v :: vs => headersFitFrom (New.Push v) vs

/-- Encoder states met while every new-window header fits: a sample has been pushed,
and the window is unset or within the field ranges. -/
def EncFit (s : Series) : Prop :=
  s.first = false ∧ s.val < 2 ^ 64 ∧ s.bw.pending.length < 8 ∧
    (s.leading = noWindow ∨ (s.leading ≤ 31 ∧ s.leading + s.trailing ≤ 63))

/-- The iterator is in step with the encoder: same current value, no error, and the
same window once the encoder has one. -/
def Agree (s : Series) (it : Iter) : Prop :=
  it.first = false ∧ it.err = none ∧ it.finished = false ∧ it.val = s.val ∧
    (s.leading ≠ noWindow → it.leading = s.leading ∧ it.trailing = s.trailing)

/-- Push `vs` into a fresh series, `Finish`, take `Series.Iter` and call `Next` `n`
times: the flag each call returns with `Values()` and `Err()` right after it, or
`none` when no iterator could be built. -/
def decode (vs : List Nat) (n : Nat) : Option (List (Bool × Nat × Option Error)) :=
  (pushAll New vs).Finish.Iter.map (trace n)

/-- The flag and `Values()` of a call, without `Err()`. -/
def flagValue (r : Bool × Nat × Option Error) : Bool × Nat := (r.1, r.2.1)

/-- `math.Float64bits(12)`: 12 = 1.5 * 2^3, exponent field 0x402, fraction 0x8 << 48. -/
def bits12 : Nat := 0x4028000000000000

/-- `math.Float64bits(24)`: 24 = 1.5 * 2^4, exponent field 0x403, fraction 0x8 << 48. -/
def bits24 : Nat := 0x4038000000000000

/-- `math.Float64bits(13)`: 13 = 1.625 * 2^3, exponent field 0x402, fraction 0xA << 48. -/
def bits13 : Nat := 0x402A000000000000

/-- The values pushed by `TestExampleEncoding`. -/
def example8 : List Nat :=
  [bits12, bits12, bits24, bits13, bits24, bits24, bits24, bits24]

/-- Bits left to read, plus one while the first `Next` is still to come. -/
def Iter.measure (it : Iter) : Nat := it.br.bits.length + (if it.first then 1 else 0)

/-- The window `Push` uses for the payload of `v`: the stored one in the reuse branch,
`(Clz d, Ctz d)` in the new-window branch. -/
def payloadWindow (s : Series) (v : Nat) : Nat × Nat :=
  if s.leading ≠ noWindow ∧ Clz (v ^^^ s.val) ≥ s.leading ∧ Ctz (v ^^^ s.val) ≥ s.trailing
  then (s.leading, s.trailing)
  else (Clz (v ^^^ s.val), Ctz (v ^^^ s.val))

/-- The iterator's window is the initial `(0, 0)` or comes from a new-window header:
a 5-bit `leading` and `trailing = 64 - leading - sigbits` for a 6-bit `sigbits`. -/
def DecWindow (it : Iter) : Prop :=
  (it.leading = 0 ∧ it.trailing = 0) ∨
    (it.leading < 32 ∧ ∃ sig, sig < 64 ∧ it.trailing = sub64 (sub64 64 it.leading) sig)

/-- A delta stays within the field ranges: it is zero, or `clz <= 31` and
`clz + ctz >= 1`. -/
def inRange (d : Nat) : Bool :=
  d == 0 || (decide (Clz d ≤ 31) && decide (1 ≤ Clz d + Ctz d))

/-- Every delta between consecutive values is within the field ranges, `prev` being the
value before `vs`. -/
def inRangeFrom (prev : Nat) : List Nat → Bool
  | [] => true
  | v :: vs => inRange (v ^^^ prev) && inRangeFrom v vs

/-- Every delta between consecutive values of the sequence is within the field ranges. -/
def inRangeAll : List Nat → Bool
  | [] => true
  | v :: vs => inRangeFrom v vs

/-- Encoder states reached by pushes before any record with 64 significant bits: a
sample has been pushed and the window is unset or `(L, T)` with `1 <= L + T <= 63`. -/
def EncNarrow (s : Series) : Prop :=
  s.first = false ∧ s.val < 2 ^ 64 ∧ s.bw.pending.length < 8 ∧
    (s.leading = noWindow ∨ (s.leading + s.trailing ≤ 63 ∧ 1 ≤ s.leading + s.trailing))

/-- The iterator is at the encoder's place in the stream: no error, and once the encoder
has a window the iterator reads value fields of the encoder's width, and holds the
encoder's window itself when that has `leading <= 31`. -/
def InSync (s : Series) (it : Iter) : Prop :=
  it.first = false ∧ it.err = none ∧ it.finished = false ∧
    (s.leading ≠ noWindow →
      (toInt (sub64 (sub64 64 it.leading) it.trailing)).toNat = 64 - s.leading - s.trailing ∧
        (s.leading ≤ 31 → it.leading = s.leading ∧ it.trailing = s.trailing))

/-- The record `Push` writes for `v` in state `s` is a new-window record with 64
significant bits (`clz = ctz = 0`). -/
def wideRecord (s : Series) (v : Nat) : Bool :=
  decide (v ^^^ s.val ≠ 0) &&
    !decide (s.leading ≠ noWindow ∧ Clz (v ^^^ s.val) ≥ s.leading ∧
      Ctz (v ^^^ s.val) ≥ s.trailing) &&
    decide (Clz (v ^^^ s.val) = 0 ∧ Ctz (v ^^^ s.val) = 0)

/-- No record written for `vs`, starting from state `s`, has 64 significant bits. -/
def noWideFrom (s : Series) : List Nat → Bool
  | [] => true
  | v :: vs => !wideRecord s v && noWideFrom (s.Push v) vs

/-- The last step of `Next` on a record with value bits: read `w` bits from `br` and
XOR them, shifted left by `trail`, into the value; `lead` and `trail` are the window the
call leaves behind, also when the read fails. -/
def Iter.readValue (it : Iter) (br : BitReader) (lead trail : Nat) (w : Int) : Bool × Iter :=
  match br.ReadBits w with
  | .error e => (false, { it with br := br, leading := lead, trailing := trail, err := some e })
  | .ok (bits, br1) =>
    (true, { it with br := br1, leading := lead, trailing := trail,
                     val := it.val ^^^ shl64 bits trail })

/-- Call number `j + 1` reads a new-window record when the iterator before it is past
its first call and its unread bits start with 1, 1. -/
def atNewWindow (it : Iter) : Prop :=
  it.first = false ∧ ∃ tail, it.br.bits = true :: true :: tail

/-- Number of padding bits `Finish` writes after `n` bits. -/
def padding (n : Nat) : Nat := (8 - n % 8) % 8

/-! ## Bit fields, bytes and the writer -/

theorem bitsMSB_length (u n : Nat) : (bitsMSB u n).length = n := by
  induction n with
  | zero => rfl
  | succ n ih => simp [bitsMSB, ih]

theorem valMSB_append (acc : Nat) (l1 l2 : List Bool) :
    valMSB acc (l1 ++ l2) = valMSB (valMSB acc l1) l2 := by
  induction l1 generalizing acc with
  | nil => rfl
  | cons b bs ih => simp [valMSB, ih]

theorem valMSB_bitsMSB (acc u n : Nat) :
    valMSB acc (bitsMSB u n) = acc * 2 ^ n + u % 2 ^ n := by
  induction n generalizing acc with
  | zero => simp [bitsMSB, valMSB, Nat.mod_one]
  | succ n ih =>
    simp only [bitsMSB, valMSB, ih]
    rw [Nat.mod_pow_succ, Nat.toNat_testBit]
    ring

theorem valMSB_shift (acc : Nat) (l : List Bool) :
    valMSB acc l = acc * 2 ^ l.length + valMSB 0 l := by
  induction l generalizing acc with
  | nil => simp [valMSB]
  | cons b bs ih =>
    simp only [valMSB, List.length_cons]
    rw [ih (2 * acc + b.toNat), ih (2 * 0 + b.toNat)]
    ring

theorem valMSB_lt (l : List Bool) : valMSB 0 l < 2 ^ l.length := by
  induction l with
  | nil => simp [valMSB]
  | cons b bs ih =>
    simp only [valMSB, List.length_cons]
    rw [valMSB_shift]
    have hb : b.toNat ≤ 1 := Bool.toNat_le b
    have h2 : (2 * 0 + b.toNat) * 2 ^ bs.length ≤ 1 * 2 ^ bs.length :=
      Nat.mul_le_mul_right _ (by omega)
    rw [Nat.pow_succ]
    omega

theorem bitsMSB_valMSB (acc : Nat) (l : List Bool) :
    bitsMSB (valMSB acc l) l.length = l := by
  induction l generalizing acc with
  | nil => rfl
  | cons b bs ih =>
    simp only [valMSB, List.length_cons, bitsMSB, ih]
    congr 1
    rw [valMSB_shift, Nat.testBit_to_div_mod]
    have hlt := valMSB_lt bs
    have hpos : 0 < 2 ^ bs.length := Nat.two_pow_pos _
    rw [Nat.add_comm, Nat.add_mul_div_right _ _ hpos, Nat.div_eq_of_lt hlt]
    cases b
    · simp
    · simp; omega

theorem byteBits_valMSB (l : List Bool) (h : l.length = 8) : byteBits (valMSB 0 l) = l := by
  unfold byteBits
  rw [← h]
  exact bitsMSB_valMSB 0 l

theorem bytesBits_append (a b : List Nat) : bytesBits (a ++ b) = bytesBits a ++ bytesBits b := by
  simp [bytesBits]

theorem bytesBits_length (a : List Nat) : (bytesBits a).length = 8 * a.length := by
  induction a with
  | nil => rfl
  | cons x xs ih =>
    simp only [bytesBits, List.flatMap_cons, List.length_append, List.length_cons] at ih ⊢
    rw [ih]
    simp [byteBits, bitsMSB_length]
    omega

theorem WriteBit_stream (w : BitWriter) (h : w.pending.length < 8) (b : Bool) :
    (w.WriteBit b).stream = w.stream ++ [b] ∧ (w.WriteBit b).pending.length < 8 := by
  unfold BitWriter.WriteBit BitWriter.stream
  by_cases h8 : 8 ≤ (w.pending ++ [b]).length
  · have hl : (w.pending ++ [b]).length = 8 := by
      simp only [List.length_append, List.length_singleton] at h8 ⊢
      omega
    simp only [h8, if_true, List.append_nil, List.length_nil]
    refine ⟨?_, by decide⟩
    rw [bytesBits_append]
    simp only [bytesBits, List.flatMap_cons, List.flatMap_nil, List.append_nil]
    rw [byteBits_valMSB _ hl, List.append_assoc]
  · simp only [h8, if_false]
    refine ⟨by rw [List.append_assoc], by omega⟩

theorem WriteList_stream (l : List Bool) (w : BitWriter) (h : w.pending.length < 8) :
    (l.foldl BitWriter.WriteBit w).stream = w.stream ++ l ∧
      (l.foldl BitWriter.WriteBit w).pending.length < 8 := by
  induction l generalizing w with
  | nil => simp [h]
  | cons b bs ih =>
    have h1 := WriteBit_stream w h b
    have h2 := ih (w.WriteBit b) h1.2
    simp only [List.foldl_cons]
    refine ⟨?_, h2.2⟩
    rw [h2.1, h1.1, List.append_assoc]
    rfl

theorem WriteBits_stream (w : BitWriter) (h : w.pending.length < 8) (u : Nat) (n : Int) :
    (w.WriteBits u n).stream = w.stream ++ bitsMSB u n.toNat ∧
      (w.WriteBits u n).pending.length < 8 :=
  WriteList_stream _ w h

theorem stream_length (w : BitWriter) :
    w.stream.length = 8 * w.out.length + w.pending.length := by
  simp [BitWriter.stream, bytesBits_length]

/-! ## Zero counts -/

theorem bitLen_le (f x : Nat) : bitLen f x ≤ f := by
  induction f generalizing x with
  | zero => simp [bitLen]
  | succ f ih =>
    unfold bitLen
    split
    · omega
    · have := ih (x / 2); omega

theorem lt_two_pow_bitLen (f x : Nat) (h : x < 2 ^ f) : x < 2 ^ bitLen f x := by
  induction f generalizing x with
  | zero => simpa [bitLen] using h
  | succ f ih =>
    unfold bitLen
    split
    · omega
    · have h2 : x / 2 < 2 ^ f := by
        rw [Nat.pow_succ] at h; omega
      have := ih (x / 2) h2
      rw [Nat.pow_succ]; omega

theorem bitLen_pos (f x : Nat) (h : x ≠ 0) : 0 < bitLen (f + 1) x := by
  unfold bitLen
  simp [h]

theorem two_pow_lowZeros_dvd (f x : Nat) : 2 ^ lowZeros f x ∣ x := by
  induction f generalizing x with
  | zero => simp [lowZeros]
  | succ f ih =>
    unfold lowZeros
    split
    · simp
    · rw [Nat.pow_succ]
      obtain ⟨k, hk⟩ := ih (x / 2)
      exact ⟨k, by rw [Nat.mul_right_comm, ← hk]; omega⟩

theorem lowZeros_lt_bitLen (f x : Nat) (h0 : x ≠ 0) (h : x < 2 ^ f) :
    lowZeros f x < bitLen f x := by
  induction f generalizing x with
  | zero => simp at h; omega
  | succ f ih =>
    unfold lowZeros bitLen
    simp only [h0, if_false]
    split
    · omega
    · have h2 : x / 2 < 2 ^ f := by
        rw [Nat.pow_succ] at h; omega
      have := ih (x / 2) (by omega) h2
      omega

theorem Clz_le (d : Nat) (h0 : d ≠ 0) : Clz d ≤ 63 := by
  have : 0 < bitLen 64 d := bitLen_pos 63 d h0
  unfold Clz; omega

theorem Clz_add_Ctz (d : Nat) (h0 : d ≠ 0) (h : d < 2 ^ 64) : Clz d + Ctz d ≤ 63 := by
  have h1 := lowZeros_lt_bitLen 64 d h0 h
  have h2 := bitLen_le 64 d
  unfold Clz Ctz; omega

theorem lt_two_pow_Clz (d : Nat) (h : d < 2 ^ 64) : d < 2 ^ (64 - Clz d) := by
  have h1 := lt_two_pow_bitLen 64 d h
  have h2 := bitLen_le 64 d
  have : 64 - Clz d = bitLen 64 d := by unfold Clz; omega
  rw [this]; exact h1

theorem two_pow_Ctz_dvd (d : Nat) : 2 ^ Ctz d ∣ d := two_pow_lowZeros_dvd 64 d

/-! ## The payload field -/

theorem sub64_small (a b : Nat) (h : b ≤ a) (ha : a < 2 ^ 64) : sub64 a b = a - b := by
  unfold sub64
  have : (2:Nat) ^ 64 = 18446744073709551616 := by norm_num
  omega

theorem toInt_small (x : Nat) (h : x < 2 ^ 63) : toInt x = (x : Int) := by
  unfold toInt
  have : (2:Nat) ^ 63 = 9223372036854775808 := by norm_num
  have h1 : x % 18446744073709551616 = x := Nat.mod_eq_of_lt (by omega)
  rw [h1, if_pos (by omega)]

theorem width_small (L T : Nat) (h : L + T ≤ 64) :
    (wrapInt (64 - toInt L - toInt T)).toNat = 64 - L - T := by
  have : (2:Nat) ^ 63 = 9223372036854775808 := by norm_num
  rw [toInt_small L (by omega), toInt_small T (by omega)]
  unfold wrapInt
  omega

/-- A delta that lies inside the window `(L, T)` is recovered from its payload field. -/
theorem payload_exact (d L T : Nat) (hd : d < 2 ^ (64 - L)) (hT : 2 ^ T ∣ d)
    (hLT : L + T ≤ 63) :
    shr64 d T % 2 ^ (64 - L - T) = shr64 d T ∧ shl64 (shr64 d T) T = d := by
  have hT64 : ¬ 64 ≤ T := by omega
  unfold shl64 shr64
  simp only [hT64, if_false]
  rw [Nat.shiftRight_eq_div_pow, Nat.shiftLeft_eq, Nat.div_mul_cancel hT]
  have hpow : (2:Nat) ^ (64 - L) = 2 ^ (64 - L - T) * 2 ^ T := by
    rw [← Nat.pow_add]; congr 1; omega
  have hlt : d / 2 ^ T < 2 ^ (64 - L - T) := by
    apply Nat.div_lt_of_lt_mul
    rw [Nat.mul_comm, ← hpow]; exact hd
  have h64 : d < 18446744073709551616 := by
    have : (2:Nat) ^ (64 - L) ≤ 2 ^ 64 := Nat.pow_le_pow_right (by decide) (by omega)
    have h2 : (2:Nat) ^ 64 = 18446744073709551616 := by norm_num
    omega
  exact ⟨Nat.mod_eq_of_lt hlt, Nat.mod_eq_of_lt h64⟩

theorem xor_undo (v p : Nat) : p ^^^ (v ^^^ p) = v := by
  rw [Nat.xor_comm v p, ← Nat.xor_assoc, Nat.xor_self, Nat.zero_xor]

/-! ## What `Push` writes -/

theorem Push_first_stream (s : Series) (v : Nat) (hf : s.first = true)
    (hp : s.bw.pending.length < 8) :
    (s.Push v).bw.stream = s.bw.stream ++ bitsMSB v 64 ∧
      (s.Push v).bw.pending.length < 8 := by
  unfold Series.Push
  simp only [hf, if_true]
  exact WriteBits_stream s.bw hp v 64

theorem Push_stream (s : Series) (v : Nat) (hf : s.first = false)
    (hp : s.bw.pending.length < 8) :
    (s.Push v).bw.stream = s.bw.stream ++ record s v ∧
      (s.Push v).bw.pending.length < 8 := by
  unfold Series.Push record
  simp only [hf, Bool.false_eq_true, if_false]
  by_cases hd : v ^^^ s.val = 0
  · simp only [hd, if_true]
    exact WriteBit_stream s.bw hp false
  · simp only [hd, if_false]
    have h1 := WriteBit_stream s.bw hp true
    by_cases hw : s.leading ≠ noWindow ∧ Clz (v ^^^ s.val) ≥ s.leading ∧
        Ctz (v ^^^ s.val) ≥ s.trailing
    · simp only [if_pos hw]
      have h2 := WriteBit_stream _ h1.2 false
      have h3 := WriteBits_stream _ h2.2 (shr64 (v ^^^ s.val) s.trailing)
        (wrapInt (64 - toInt s.leading - toInt s.trailing))
      refine ⟨?_, h3.2⟩
      rw [h3.1, h2.1, h1.1]
      simp
    · simp only [if_neg hw]
      have h2 := WriteBit_stream _ h1.2 true
      have h3 := WriteBits_stream _ h2.2 (Clz (v ^^^ s.val)) 5
      have h4 := WriteBits_stream _ h3.2
        (sub64 (sub64 64 (Clz (v ^^^ s.val))) (Ctz (v ^^^ s.val))) 6
      have h5 := WriteBits_stream _ h4.2 (shr64 (v ^^^ s.val) (Ctz (v ^^^ s.val)))
        (toInt (sub64 (sub64 64 (Clz (v ^^^ s.val))) (Ctz (v ^^^ s.val))))
      refine ⟨?_, h5.2⟩
      rw [h5.1, h4.1, h3.1, h2.1, h1.1]
      simp

/-! ## Reading back what was written -/

theorem ReadBit_eq (r : BitReader) (b : Bool) (rest : List Bool) (h : r.bits = b :: rest) :
    r.ReadBit = .ok (b, { bits := rest }) := by
  unfold BitReader.ReadBit
  rw [h]

theorem ReadBits_eq (r : BitReader) (k : Int) (u n : Nat) (rest : List Bool)
    (hk : k.toNat = n) (h : r.bits = bitsMSB u n ++ rest) :
    r.ReadBits k = .ok (u % 2 ^ n, { bits := rest }) := by
  unfold BitReader.ReadBits
  have hl : (bitsMSB u n).length = n := bitsMSB_length u n
  rw [hk, h]
  have h1 : ¬ (bitsMSB u n ++ rest).length < n := by
    rw [List.length_append, hl]; omega
  rw [if_neg h1]
  have h2 : (bitsMSB u n ++ rest).take n = bitsMSB u n := List.take_left' hl
  have h3 : (bitsMSB u n ++ rest).drop n = rest := List.drop_left' hl
  rw [h2, h3, valMSB_bitsMSB]
  simp

theorem Next_zero (it : Iter) (rest : List Bool) (h1 : it.first = false)
    (h2 : it.err = none) (h3 : it.finished = false) (hb : it.br.bits = false :: rest) :
    it.Next = (true, { it with br := { bits := rest } }) := by
  unfold Iter.Next
  rw [ReadBit_eq _ _ _ hb]
  simp [h1, h2, h3]

theorem Next_reuse (it : Iter) (p W : Nat) (rest : List Bool) (h1 : it.first = false)
    (h2 : it.err = none) (h3 : it.finished = false)
    (hW : (toInt (sub64 (sub64 64 it.leading) it.trailing)).toNat = W)
    (hb : it.br.bits = [true, false] ++ bitsMSB p W ++ rest) :
    it.Next = (true, { it with br := { bits := rest },
                               val := it.val ^^^ shl64 (p % 2 ^ W) it.trailing }) := by
  unfold Iter.Next
  rw [ReadBit_eq it.br true (false :: (bitsMSB p W ++ rest)) (by rw [hb]; rfl)]
  simp only [h1, h2, h3]
  rw [ReadBit_eq { bits := false :: (bitsMSB p W ++ rest) } false (bitsMSB p W ++ rest) rfl]
  simp only []
  rw [ReadBits_eq { bits := bitsMSB p W ++ rest } _ p W rest hW rfl]
  simp

theorem Next_new (it : Iter) (L S p : Nat) (rest : List Bool) (h1 : it.first = false)
    (h2 : it.err = none) (h3 : it.finished = false) (hL : L < 32) (hS : S < 64) (W : Nat)
    (hW : (toInt (sub64 (sub64 64 L) (sub64 (sub64 64 L) S))).toNat = W)
    (hb : it.br.bits = [true, true] ++ bitsMSB L 5 ++ bitsMSB S 6 ++ bitsMSB p W ++ rest) :
    it.Next = (true, { it with br := { bits := rest }, leading := L,
                               trailing := sub64 (sub64 64 L) S,
                               val := it.val ^^^ shl64 (p % 2 ^ W) (sub64 (sub64 64 L) S) }) := by
  unfold Iter.Next
  rw [ReadBit_eq it.br true (true :: (bitsMSB L 5 ++ (bitsMSB S 6 ++ (bitsMSB p W ++ rest))))
    (by rw [hb]; simp)]
  simp only [h1, h2, h3]
  rw [ReadBit_eq { bits := true :: (bitsMSB L 5 ++ (bitsMSB S 6 ++ (bitsMSB p W ++ rest))) }
    true (bitsMSB L 5 ++ (bitsMSB S 6 ++ (bitsMSB p W ++ rest))) rfl]
  simp only []
  rw [ReadBits_eq { bits := bitsMSB L 5 ++ (bitsMSB S 6 ++ (bitsMSB p W ++ rest)) } 5 L 5
    (bitsMSB S 6 ++ (bitsMSB p W ++ rest)) rfl rfl]
  simp only []
  rw [ReadBits_eq { bits := bitsMSB S 6 ++ (bitsMSB p W ++ rest) } 6 S 6
    (bitsMSB p W ++ rest) rfl rfl]
  simp only []
  have hL5 : L % 2 ^ 5 = L := Nat.mod_eq_of_lt (by omega)
  have hS6 : S % 2 ^ 6 = S := Nat.mod_eq_of_lt (by omega)
  rw [hL5, hS6]
  rw [ReadBits_eq { bits := bitsMSB p W ++ rest } _ p W rest hW rfl]
  simp

/-! ## One record, both sides -/

theorem Push_fields (s : Series) (v : Nat) :
    (s.Push v).val = v ∧ (s.Push v).first = false ∧ (s.Push v).finished = s.finished := by
  unfold Series.Push
  by_cases hf : s.first = true
  · simp [hf]
  · by_cases hd : v ^^^ s.val = 0
    · simp [hf, hd]
    · by_cases hw : s.leading ≠ noWindow ∧ Clz (v ^^^ s.val) ≥ s.leading ∧
          Ctz (v ^^^ s.val) ≥ s.trailing
      · simp only [hf, hd, if_false, if_pos hw]
        simp at hf
        simp [hf]
      · simp only [hf, hd, if_false, if_neg hw]
        simp at hf
        simp [hf]

theorem Push_window_keep (s : Series) (v : Nat) (hf : s.first = false)
    (h : v ^^^ s.val = 0 ∨ (s.leading ≠ noWindow ∧ Clz (v ^^^ s.val) ≥ s.leading ∧
      Ctz (v ^^^ s.val) ≥ s.trailing)) :
    (s.Push v).leading = s.leading ∧ (s.Push v).trailing = s.trailing := by
  unfold Series.Push
  by_cases hd : v ^^^ s.val = 0
  · simp [hf, hd]
  · have hw := h.resolve_left hd
    simp only [hf, hd, if_false, if_pos hw]
    simp

theorem Push_window_new (s : Series) (v : Nat) (hf : s.first = false)
    (hd : v ^^^ s.val ≠ 0)
    (hw : ¬ (s.leading ≠ noWindow ∧ Clz (v ^^^ s.val) ≥ s.leading ∧
      Ctz (v ^^^ s.val) ≥ s.trailing)) :
    (s.Push v).leading = Clz (v ^^^ s.val) ∧ (s.Push v).trailing = Ctz (v ^^^ s.val) := by
  unfold Series.Push
  simp only [hf, hd, if_false, if_neg hw]
  simp

theorem fits_nonzero (d : Nat) (h : fits d = true) (hd : d ≠ 0) :
    Clz d < 32 ∧ sub64 (sub64 64 (Clz d)) (Ctz d) ≠ 64 := by
  unfold fits at h
  simpa [hd] using h

theorem headerFits_new (s : Series) (v : Nat) (h : headerFits s v = true)
    (hd : v ^^^ s.val ≠ 0)
    (hw : ¬ (s.leading ≠ noWindow ∧ Clz (v ^^^ s.val) ≥ s.leading ∧
      Ctz (v ^^^ s.val) ≥ s.trailing)) :
    Clz (v ^^^ s.val) < 32 ∧ sub64 (sub64 64 (Clz (v ^^^ s.val))) (Ctz (v ^^^ s.val)) ≠ 64 := by
  unfold headerFits at h
  simp only [Bool.or_eq_true, decide_eq_true_eq] at h
  exact fits_nonzero _ (h.resolve_left hw) hd

theorem fits_headerFits (s : Series) (v : Nat) (h : fits (v ^^^ s.val) = true) :
    headerFits s v = true := by
  unfold headerFits
  rw [h, Bool.or_true]

theorem sigbits_eq (d : Nat) (hd : d ≠ 0) (h : d < 2 ^ 64) :
    sub64 (sub64 64 (Clz d)) (Ctz d) = 64 - Clz d - Ctz d := by
  have h1 := Clz_add_Ctz d hd h
  rw [sub64_small 64 (Clz d) (by omega) (by norm_num), sub64_small _ _ (by omega)]
  have : (2:Nat) ^ 64 = 18446744073709551616 := by norm_num
  omega

theorem Push_EncFit (s : Series) (v : Nat) (hs : EncFit s) (hv : v < 2 ^ 64)
    (hfit : headerFits s v = true) : EncFit (s.Push v) := by
  obtain ⟨hf, hval, hp, hwin⟩ := hs
  have hfl := Push_fields s v
  have hst := Push_stream s v hf hp
  refine ⟨hfl.2.1, by rw [hfl.1]; exact hv, hst.2, ?_⟩
  by_cases hk : v ^^^ s.val = 0 ∨ (s.leading ≠ noWindow ∧ Clz (v ^^^ s.val) ≥ s.leading ∧
      Ctz (v ^^^ s.val) ≥ s.trailing)
  · have := Push_window_keep s v hf hk
    rw [this.1, this.2]; exact hwin
  · have hd : v ^^^ s.val ≠ 0 := fun h => hk (Or.inl h)
    have hw := fun h => hk (Or.inr h)
    have := Push_window_new s v hf hd hw
    rw [this.1, this.2]
    have hd64 : v ^^^ s.val < 2 ^ 64 := Nat.xor_lt_two_pow hv hval
    have h1 := (headerFits_new s v hfit hd hw).1
    have h2 := Clz_add_Ctz _ hd hd64
    exact Or.inr ⟨by omega, h2⟩

theorem Next_record (s : Series) (it : Iter) (v : Nat) (rest : List Bool) (hs : EncFit s)
    (ha : Agree s it) (hv : v < 2 ^ 64) (hfit : headerFits s v = true)
    (hb : it.br.bits = record s v ++ rest) :
    it.Next.1 = true ∧ it.Next.2.br.bits = rest ∧ Agree (s.Push v) it.Next.2 := by
  obtain ⟨hf, hval, hp, hwin⟩ := hs
  obtain ⟨a1, a2, a3, a4, a5⟩ := ha
  have hfl := Push_fields s v
  have hd64 : v ^^^ s.val < 2 ^ 64 := Nat.xor_lt_two_pow hv hval
  have hundo : s.val ^^^ (v ^^^ s.val) = v := xor_undo v s.val
  by_cases hd : v ^^^ s.val = 0
  · have hwk := Push_window_keep s v hf (Or.inl hd)
    have hrec : record s v = [false] := by unfold record; simp [hd]
    rw [hrec] at hb
    rw [Next_zero it rest a1 a2 a3 hb]
    refine ⟨rfl, rfl, a1, a2, a3, ?_, ?_⟩
    · rw [hfl.1]; rw [hd] at hundo; simpa [a4] using hundo
    · rw [hwk.1, hwk.2]; exact a5
  · by_cases hw : s.leading ≠ noWindow ∧ Clz (v ^^^ s.val) ≥ s.leading ∧
        Ctz (v ^^^ s.val) ≥ s.trailing
    · have hwk := Push_window_keep s v hf (Or.inr hw)
      obtain ⟨hL, hLT⟩ := hwin.resolve_left hw.1
      obtain ⟨e1, e2⟩ := a5 hw.1
      have hrec : record s v = [true, false] ++
          bitsMSB (shr64 (v ^^^ s.val) s.trailing) (64 - s.leading - s.trailing) := by
        unfold record
        simp only [hd, if_false, if_pos hw]
        rw [width_small _ _ (by omega)]
      rw [hrec] at hb
      have hW : (toInt (sub64 (sub64 64 it.leading) it.trailing)).toNat =
          64 - s.leading - s.trailing := by
        rw [e1, e2, sub64_small 64 _ (by omega) (by norm_num), sub64_small _ _ (by omega)
          (by have : (2:Nat) ^ 64 = 18446744073709551616 := by norm_num
              omega)]
        rw [toInt_small _ (by have : (2:Nat) ^ 63 = 9223372036854775808 := by norm_num
                              omega)]
        simp
      rw [Next_reuse it _ _ rest a1 a2 a3 hW hb]
      have hlt : v ^^^ s.val < 2 ^ (64 - s.leading) :=
        Nat.lt_of_lt_of_le (lt_two_pow_Clz _ hd64)
          (Nat.pow_le_pow_right (by decide) (by omega))
      have hdvd : 2 ^ s.trailing ∣ v ^^^ s.val :=
        Nat.dvd_trans (Nat.pow_dvd_pow 2 hw.2.2) (two_pow_Ctz_dvd _)
      have hpay := payload_exact _ _ _ hlt hdvd hLT
      refine ⟨rfl, rfl, a1, a2, a3, ?_, ?_⟩
      · simp only [hfl.1]
        rw [hpay.1, e2, hpay.2, a4, hundo]
      · rw [hwk.1, hwk.2]; exact a5
    · have hwn := Push_window_new s v hf hd hw
      obtain ⟨hL, hS⟩ := headerFits_new s v hfit hd hw
      have hLT := Clz_add_Ctz _ hd hd64
      have hsig := sigbits_eq _ hd hd64
      have hrec : record s v = [true, true] ++ bitsMSB (Clz (v ^^^ s.val)) 5 ++
          bitsMSB (64 - Clz (v ^^^ s.val) - Ctz (v ^^^ s.val)) 6 ++
          bitsMSB (shr64 (v ^^^ s.val) (Ctz (v ^^^ s.val)))
            (64 - Clz (v ^^^ s.val) - Ctz (v ^^^ s.val)) := by
        unfold record
        simp only [hd, if_false, if_neg hw]
        rw [hsig, toInt_small _ (by have : (2:Nat) ^ 63 = 9223372036854775808 := by norm_num
                                    omega)]
        simp
      rw [hrec] at hb
      rw [hsig] at hS
      have htr : sub64 (sub64 64 (Clz (v ^^^ s.val)))
          (64 - Clz (v ^^^ s.val) - Ctz (v ^^^ s.val)) = Ctz (v ^^^ s.val) := by
        rw [sub64_small 64 _ (by omega) (by norm_num), sub64_small _ _ (by omega)
          (by have : (2:Nat) ^ 64 = 18446744073709551616 := by norm_num
              omega)]
        omega
      have hW : (toInt (sub64 (sub64 64 (Clz (v ^^^ s.val)))
          (sub64 (sub64 64 (Clz (v ^^^ s.val)))
            (64 - Clz (v ^^^ s.val) - Ctz (v ^^^ s.val))))).toNat =
          64 - Clz (v ^^^ s.val) - Ctz (v ^^^ s.val) := by
        rw [htr, hsig, toInt_small _ (by
          have : (2:Nat) ^ 63 = 9223372036854775808 := by norm_num
          omega)]
        simp
      rw [Next_new it _ _ _ rest a1 a2 a3 hL (by omega) _ hW hb]
      have hpay := payload_exact _ _ _ (lt_two_pow_Clz _ hd64) (two_pow_Ctz_dvd _) hLT
      refine ⟨rfl, rfl, a1, a2, a3, ?_, ?_⟩
      · simp only [hfl.1]
        rw [htr, hpay.1, hpay.2, a4, hundo]
      · intro _
        simp only [htr]
        exact ⟨hwn.1.symm, hwn.2.symm⟩

/-! ## Sequences of records -/

theorem trace_add (a b : Nat) (it : Iter) :
    trace (a + b) it = trace a it ++ trace b (nextN a it) := by
  induction a generalizing it with
  | zero => simp [trace, nextN]
  | succ a ih =>
    rw [Nat.succ_add]
    simp only [trace, nextN, ih, List.cons_append]

theorem nextN_add (a b : Nat) (it : Iter) : nextN (a + b) it = nextN b (nextN a it) := by
  induction a generalizing it with
  | zero => simp [nextN]
  | succ a ih =>
    rw [Nat.succ_add]
    simp only [nextN, ih]

theorem trace_length (n : Nat) (it : Iter) : (trace n it).length = n := by
  induction n generalizing it with
  | zero => rfl
  | succ n ih => simp [trace, ih]

theorem pushAll_stream (vs : List Nat) (s : Series) (hf : s.first = false)
    (hp : s.bw.pending.length < 8) :
    (pushAll s vs).bw.stream = s.bw.stream ++ records s vs ∧
      (pushAll s vs).bw.pending.length < 8 ∧ (pushAll s vs).first = false ∧
      (pushAll s vs).finished = s.finished := by
  induction vs generalizing s with
  | nil => simp [pushAll, records, hf, hp]
  | cons v vs ih =>
    have h1 := Push_stream s v hf hp
    have h2 := Push_fields s v
    have h3 := ih (s.Push v) h2.2.1 h1.2
    simp only [pushAll, List.foldl_cons, records] at h3 ⊢
    refine ⟨?_, h3.2.1, h3.2.2.1, by rw [h3.2.2.2, h2.2.2]⟩
    rw [h3.1, h1.1, List.append_assoc]

theorem Next_records (vs : List Nat) (s : Series) (it : Iter) (rest : List Bool)
    (hs : EncFit s) (ha : Agree s it) (hvs : ∀ v ∈ vs, v < 2 ^ 64)
    (hfit : headersFitFrom s vs = true) (hb : it.br.bits = records s vs ++ rest) :
    trace vs.length it = vs.map (fun v => (true, v, none)) ∧
      (nextN vs.length it).br.bits = rest ∧
      Agree (pushAll s vs) (nextN vs.length it) ∧ EncFit (pushAll s vs) := by
  induction vs generalizing s it with
  | nil =>
    simp only [records, List.nil_append] at hb
    exact ⟨rfl, hb, ha, hs⟩
  | cons v vs ih =>
    have hv : v < 2 ^ 64 := hvs v (List.mem_cons_self _ _)
    simp only [headersFitFrom, Bool.and_eq_true] at hfit
    simp only [records, List.append_assoc] at hb
    have h1 := Next_record s it v (records (s.Push v) vs ++ rest) hs ha hv hfit.1 hb
    have h2 := Push_EncFit s v hs hv hfit.1
    have hval : (s.Push v).val = v := (Push_fields s v).1
    have h3 := ih (s.Push v) it.Next.2 h2 h1.2.2
      (fun w hw => hvs w (List.mem_cons_of_mem _ hw)) hfit.2 h1.2.1
    refine ⟨?_, h3.2.1, h3.2.2.1, h3.2.2.2⟩
    simp only [List.length_cons, trace, List.map_cons, h3.1, h1.1]
    have e1 : it.Next.2.Values = v := by
      unfold Iter.Values; rw [h1.2.2.2.2.2.1, hval]
    have e2 : it.Next.2.Err = none := h1.2.2.2.1
    rw [e1, e2]

/-! ## Padding and the end of the stream -/

theorem Flush_stream (w : BitWriter) (h : w.pending.length < 8) (bit : Bool) :
    (w.Flush bit).stream = w.stream ++ List.replicate (padding w.stream.length) bit ∧
      (w.Flush bit).pending = [] := by
  unfold BitWriter.Flush
  have hlen := stream_length w
  by_cases hp : w.pending = []
  · simp only [hp, if_true]
    have : padding w.stream.length = 0 := by
      rw [hlen, hp]; unfold padding; simp
    rw [this]; simp
  · simp only [hp, if_false]
    have hpos : 0 < w.pending.length := List.length_pos.mpr hp
    have h1 := WriteList_stream (List.replicate (8 - w.pending.length) bit) w h
    have hpad : padding w.stream.length = 8 - w.pending.length := by
      rw [hlen]; unfold padding; omega
    rw [hpad]
    refine ⟨h1.1, ?_⟩
    have h2 := stream_length (List.foldl BitWriter.WriteBit w
      (List.replicate (8 - w.pending.length) bit))
    rw [h1.1, List.length_append, List.length_replicate, hlen] at h2
    apply List.eq_nil_of_length_eq_zero
    omega

theorem Finish_bits (s : Series) (hf : s.finished = false) (hp : s.bw.pending.length < 8) :
    bytesBits s.Finish.Bytes =
      s.bw.stream ++ List.replicate (padding s.bw.stream.length) false := by
  unfold Series.Finish Series.Bytes
  simp only [hf, Bool.not_false, if_true]
  have h := Flush_stream s.bw hp false
  rw [← h.1]
  unfold BitWriter.stream
  rw [h.2, List.append_nil]

theorem NewIterator_eq (b : List Nat) (v0 : Nat) (rest : List Bool) (hv : v0 < 2 ^ 64)
    (hb : bytesBits b = bitsMSB v0 64 ++ rest) :
    NewIterator b = .ok { val := v0, leading := 0, trailing := 0, br := { bits := rest },
                          first := true, finished := false, err := none } := by
  unfold NewIterator
  rw [ReadBits_eq (NewReader b) 64 v0 64 rest rfl hb, Nat.mod_eq_of_lt hv]

theorem Next_first (it : Iter) (h1 : it.first = true) (h2 : it.err = none)
    (h3 : it.finished = false) : it.Next = (true, { it with first := false }) := by
  unfold Iter.Next
  simp [h1, h2, h3]

theorem Next_eof (it : Iter) (h1 : it.first = false) (h2 : it.err = none)
    (h3 : it.finished = false) (hb : it.br.bits = []) :
    it.Next = (false, { it with err := some Error.EOF }) := by
  unfold Iter.Next BitReader.ReadBit
  simp [h1, h2, h3, hb]

theorem Next_padding (p : Nat) (it : Iter) (h1 : it.first = false) (h2 : it.err = none)
    (h3 : it.finished = false) (hb : it.br.bits = List.replicate p false) :
    trace p it = List.replicate p (true, it.val, none) ∧
      nextN p it = { it with br := { bits := [] } } := by
  induction p generalizing it with
  | zero =>
    simp only [List.replicate_zero] at hb
    refine ⟨rfl, ?_⟩
    simp only [nextN]
    cases it with
    | mk val leading trailing br first finished err =>
      cases br with
      | mk bits => simp at hb; simp [hb]
  | succ p ih =>
    have hn := Next_zero it (List.replicate p false) h1 h2 h3 (by rw [hb]; rfl)
    have h := ih { it with br := { bits := List.replicate p false } } h1 h2 h3 rfl
    simp only [trace, nextN, hn, List.replicate_succ]
    refine ⟨?_, h.2⟩
    rw [h.1]
    simp [Iter.Values, Iter.Err, h2]

/-! ## Encode, then decode -/

theorem Push_first_window (s : Series) (v : Nat) (hf : s.first = true) :
    (s.Push v).leading = s.leading ∧ (s.Push v).trailing = s.trailing := by
  unfold Series.Push
  simp [hf]

/-- The whole pipeline while every new-window header fits: the iterator is built,
`Next` returns the pushed values in order, and what is left is the padding. -/
theorem decode_fits (v0 : Nat) (vs : List Nat) (hv0 : v0 < 2 ^ 64)
    (hvs : ∀ v ∈ vs, v < 2 ^ 64) (hfit : headersFitFrom (New.Push v0) vs = true) :
    ∃ it0, (pushAll New (v0 :: vs)).Finish.Iter = some it0 ∧
      it0.err = none ∧ it0.val = v0 ∧ it0.first = true ∧
      it0.br.bits.length + 64 = 8 * (pushAll New (v0 :: vs)).Finish.Bytes.length ∧
      trace (vs.length + 1) it0 = (v0 :: vs).map (fun v => (true, v, none)) ∧
      (nextN (vs.length + 1) it0).br.bits =
        List.replicate (padding (pushAll New (v0 :: vs)).bw.stream.length) false ∧
      Agree (pushAll New (v0 :: vs)) (nextN (vs.length + 1) it0) ∧
      EncFit (pushAll New (v0 :: vs)) := by
  have hp0 : New.bw.pending.length < 8 := by decide
  have h1 := Push_first_stream New v0 rfl hp0
  have hfl := Push_fields New v0
  have hwin := Push_first_window New v0 rfl
  have hs1 : EncFit (New.Push v0) :=
    ⟨hfl.2.1, by rw [hfl.1]; exact hv0, h1.2, Or.inl hwin.1⟩
  have hall : pushAll New (v0 :: vs) = pushAll (New.Push v0) vs := rfl
  have h2 := pushAll_stream vs (New.Push v0) hfl.2.1 h1.2
  have hfin : (pushAll New (v0 :: vs)).finished = false := by
    rw [hall, h2.2.2.2, hfl.2.2]; rfl
  have hstream : (pushAll New (v0 :: vs)).bw.stream =
      bitsMSB v0 64 ++ records (New.Push v0) vs := by
    rw [hall, h2.1, h1.1]; rfl
  have hbits := Finish_bits (pushAll New (v0 :: vs)) hfin (by rw [hall]; exact h2.2.1)
  obtain ⟨pad, hpad⟩ : ∃ pad : List Bool, pad =
      List.replicate (padding (pushAll New (v0 :: vs)).bw.stream.length) false := ⟨_, rfl⟩
  rw [← hpad] at hbits ⊢
  rw [hstream, List.append_assoc] at hbits
  have hnew := NewIterator_eq _ v0 _ hv0 hbits
  refine ⟨_, by unfold Series.Iter; rw [hnew], rfl, rfl, rfl, ?_, ?_⟩
  · have hl := congrArg List.length hbits
    rw [bytesBits_length, List.length_append, bitsMSB_length] at hl
    simp only []
    omega
  · rw [Nat.add_comm vs.length 1, trace_add, nextN_add]
    have hn := Next_first
      { val := v0, leading := 0, trailing := 0,
        br := { bits := records (New.Push v0) vs ++ pad },
        first := true, finished := false, err := none } rfl rfl rfl
    have hag : Agree (New.Push v0)
        { val := v0, leading := 0, trailing := 0,
          br := { bits := records (New.Push v0) vs ++ pad },
          first := false, finished := false, err := none } :=
      ⟨rfl, rfl, rfl, hfl.1.symm, fun h => absurd hwin.1 h⟩
    have h3 := Next_records vs (New.Push v0) _ _ hs1 hag hvs hfit rfl
    simp only [trace, nextN, hn]
    refine ⟨?_, h3.2.1, ?_, ?_⟩
    · rw [h3.1]; rfl
    · rw [hall]; exact h3.2.2.1
    · rw [hall]; exact h3.2.2.2

/-- The same for a sequence given as a non-empty list. -/
theorem decode_fits_list (vs : List Nat) (hne : vs ≠ []) (hvs : ∀ v ∈ vs, v < 2 ^ 64)
    (hfit : headersFit vs = true) :
    ∃ it0, (pushAll New vs).Finish.Iter = some it0 ∧
      trace vs.length it0 = vs.map (fun v => (true, v, none)) ∧
      (nextN vs.length it0).br.bits =
        List.replicate (padding (pushAll New vs).bw.stream.length) false ∧
      Agree (pushAll New vs) (nextN vs.length it0) ∧ EncFit (pushAll New vs) := by
  cases vs with
  | nil => exact absurd rfl hne
  | cons v0 vs =>
    obtain ⟨it0, h1, _, _, _, _, h2, h3, h4, h5⟩ := decode_fits v0 vs
      (hvs v0 (List.mem_cons_self _ _)) (fun w hw => hvs w (List.mem_cons_of_mem _ hw)) hfit
    exact ⟨it0, h1, h2, h3, h4, h5⟩

theorem pushAll_val (vs : List Nat) (s : Series) (hne : vs ≠ []) :
    (pushAll s vs).val = vs.getLast hne := by
  induction vs generalizing s with
  | nil => exact absurd rfl hne
  | cons v vs ih =>
    cases vs with
    | nil => simpa [pushAll] using (Push_fields s v).1
    | cons w ws =>
      have := ih (s.Push v) (List.cons_ne_nil _ _)
      simpa [pushAll] using this

theorem fitsFrom_headersFitFrom (vs : List Nat) (s : Series)
    (h : fitsFrom s.val vs = true) : headersFitFrom s vs = true := by
  induction vs generalizing s with
  | nil => rfl
  | cons v vs ih =>
    simp only [fitsFrom, headersFitFrom, Bool.and_eq_true] at h ⊢
    refine ⟨fits_headerFits s v h.1, ih (s.Push v) ?_⟩
    rw [(Push_fields s v).1]
    exact h.2

/-- A sequence whose deltas all fit the header fields has only headers that fit. -/
theorem fitsAll_headersFit (vs : List Nat) (h : fitsAll vs = true) :
    headersFit vs = true := by
  cases vs with
  | nil => rfl
  | cons v vs =>
    apply fitsFrom_headersFitFrom
    rw [(Push_fields New v).1]
    exact h

/-- While `finished` is unset (nothing in `tsz.go` sets it), a `Next` that returns false
has recorded an error. -/
theorem Next_false_err (it : Iter) (hfin : it.finished = false) (h : it.Next.1 = false) :
    it.Next.2.err ≠ none := by
  unfold Iter.Next at h ⊢
  by_cases he : it.err = none
  · simp only [he, hfin] at h ⊢
    repeat' split
    all_goals simp_all
  · simp [he]

/-! ## Round trip -/

set_option maxRecDepth 100000 in
/-- C1 (as stated, refuted): the round trip fails for 12 followed by the next double
above 12 (delta 1, 63 leading zeros) and for the patterns 0 and 0x8000000000000001
(delta 64 significant bits wide): the second `Next` returns true with a wrong value. -/
theorem roundtrip_fails_outside_fields :
    (decode [bits12, bits12 + 1] 2).map (List.map flagValue) ≠
        some ([bits12, bits12 + 1].map (fun v => (true, v))) ∧
      (decode [0, 0x8000000000000001] 2).map (List.map flagValue) ≠
        some ([0, 0x8000000000000001].map (fun v => (true, v))) := by
  constructor <;> decide

/-- C1 (amended): for every non-empty sequence of 64-bit patterns in which every delta
that `Push` writes as a new-window record (a nonzero delta that does not lie inside the
window the encoder holds) has fewer than 32 leading zero bits and fewer than 64
significant bits, `Next` called once per pushed value returns true every time and
`Values()` after the i-th call is the i-th pushed pattern. Deltas written as reuse
records are not restricted. -/
theorem roundtrip_fitting_headers (vs : List Nat) (hne : vs ≠ [])
    (hvs : ∀ v ∈ vs, v < 2 ^ 64) (hfit : headersFit vs = true) :
    (decode vs vs.length).map (List.map flagValue) = some (vs.map (fun v => (true, v))) := by
  obtain ⟨it0, h1, h2, _⟩ := decode_fits_list vs hne hvs hfit
  unfold decode
  rw [h1]
  simp only [Option.map_some', h2, List.map_map]
  rfl

set_option maxRecDepth 100000 in
theorem roundtrip_fitting_headers_witness :
    [0, 0x180000000, 0x100000000] ≠ [] ∧
      (∀ v ∈ [0, 0x180000000, 0x100000000], v < 2 ^ 64) ∧
      Clz (0x100000000 ^^^ 0x180000000) = 32 ∧
      record (pushAll New [0, 0x180000000]) 0x100000000 = [true, false, false, true] ∧
      headersFit [0, 0x180000000, 0x100000000] = true ∧
      (decode [0, 0x180000000, 0x100000000] [0, 0x180000000, 0x100000000].length).map
        (List.map flagValue) =
          some ([0, 0x180000000, 0x100000000].map (fun v => (true, v))) :=
  ⟨by decide, by decide, by decide, by decide, by decide,
    roundtrip_fitting_headers [0, 0x180000000, 0x100000000] (by decide) (by decide)
      (by decide)⟩

set_option maxRecDepth 100000 in
/-- C2: pushing 12, 12, 24, 13, 24, 24, 24, 24, finishing and calling `Next` eight times
on `Iter()` returns true each time with `Values()` equal to the pushed values in order. -/
theorem example_eight_values :
    (decode example8 8).map (List.map flagValue) =
      some [(true, bits12), (true, bits12), (true, bits24), (true, bits13),
            (true, bits24), (true, bits24), (true, bits24), (true, bits24)] := by
  decide

set_option maxRecDepth 100000 in
/-- C3 (the code at the failing input): after the eight values of the example, the ninth
`Next` reads a padding bit and returns true, where the test expects false. -/
theorem example_ninth_next_true :
    (decode example8 9).map (List.drop 8) = some [(true, bits24, none)] := by
  decide

/-- C4: when every delta fits the header fields, the calls of `Next` after the pushed
values return true once per padding bit, with `Values()` unchanged and `Err()` nil, and
the call after those returns false with `Err()` set to the end-of-stream error. -/
theorem overread_padding_then_eof (vs : List Nat) (hne : vs ≠ [])
    (hvs : ∀ v ∈ vs, v < 2 ^ 64) (hfit : fitsAll vs = true) :
    decode vs (vs.length + padding (pushAll New vs).bw.stream.length + 1) =
      some (vs.map (fun v => (true, v, none)) ++
        List.replicate (padding (pushAll New vs).bw.stream.length)
          (true, vs.getLast hne, none) ++
        [(false, vs.getLast hne, some Error.EOF)]) := by
  obtain ⟨it0, h1, h2, h3, h4, _⟩ :=
    decode_fits_list vs hne hvs (fitsAll_headersFit vs hfit)
  obtain ⟨a1, a2, a3, a4, _⟩ := h4
  rw [pushAll_val vs New hne] at a4
  unfold decode
  rw [h1]
  simp only [Option.map_some']
  generalize hk : nextN vs.length it0 = itk at h3 a1 a2 a3 a4
  generalize padding (pushAll New vs).bw.stream.length = p at h3
  have hp := Next_padding p itk a1 a2 a3 h3
  have he := Next_eof (nextN p itk) (by rw [hp.2]; exact a1) (by rw [hp.2]; exact a2)
    (by rw [hp.2]; exact a3) (by rw [hp.2])
  rw [trace_add, trace_add, nextN_add, h2, hk, hp.1, a4]
  simp only [trace, he, Iter.Values, Iter.Err]
  rw [hp.2, a4]

set_option maxRecDepth 100000 in
theorem overread_padding_then_eof_witness :
    [bits12, bits24] ≠ [] ∧ (∀ v ∈ [bits12, bits24], v < 2 ^ 64) ∧
      fitsAll [bits12, bits24] = true ∧
      decode [bits12, bits24]
          ([bits12, bits24].length + padding (pushAll New [bits12, bits24]).bw.stream.length
            + 1) =
        some ([bits12, bits24].map (fun v => (true, v, none)) ++
          List.replicate (padding (pushAll New [bits12, bits24]).bw.stream.length)
            (true, [bits12, bits24].getLast (List.cons_ne_nil _ _), none) ++
          [(false, [bits12, bits24].getLast (List.cons_ne_nil _ _), some Error.EOF)]) :=
  ⟨by decide, by decide, by decide,
    overread_padding_then_eof [bits12, bits24] (List.cons_ne_nil _ _) (by decide) (by decide)⟩

/-! ## Record layouts -/

theorem bitsMSB_add (u n m : Nat) : bitsMSB u (n + m) = bitsMSB (u >>> m) n ++ bitsMSB u m := by
  induction n with
  | zero => simp [bitsMSB]
  | succ n ih =>
    rw [Nat.succ_add]
    simp only [bitsMSB, ih, List.cons_append, Nat.testBit_shiftRight, Nat.add_comm m n]

theorem bitsMSB_mod (u n : Nat) : bitsMSB (u % 2 ^ n) n = bitsMSB u n := by
  suffices h : ∀ k, k ≤ n → bitsMSB (u % 2 ^ n) k = bitsMSB u k from h n (Nat.le_refl n)
  intro k
  induction k with
  | zero => intro _; rfl
  | succ k ih =>
    intro hk
    simp only [bitsMSB, ih (by omega), Nat.testBit_mod_two_pow]
    have : k < n := by omega
    simp [this]

theorem WriteList_short (l : List Bool) (w : BitWriter)
    (h : w.pending.length + l.length < 8) :
    l.foldl BitWriter.WriteBit w = { out := w.out, pending := w.pending ++ l } := by
  induction l generalizing w with
  | nil => simp
  | cons b bs ih =>
    simp only [List.length_cons] at h
    have h1 : w.WriteBit b = { out := w.out, pending := w.pending ++ [b] } := by
      unfold BitWriter.WriteBit
      simp only [List.length_append, List.length_singleton]
      rw [if_neg (by omega)]
    simp only [List.foldl_cons, h1]
    rw [ih _ (by simp only [List.length_append, List.length_singleton]; omega)]
    simp

theorem WriteList_fill (l : List Bool) (w : BitWriter) (hl : l ≠ [])
    (h : w.pending.length + l.length = 8) :
    l.foldl BitWriter.WriteBit w =
      { out := w.out ++ [valMSB 0 (w.pending ++ l)], pending := [] } := by
  induction l generalizing w with
  | nil => exact absurd rfl hl
  | cons b bs ih =>
    simp only [List.length_cons] at h
    by_cases hbs : bs = []
    · subst hbs
      simp only [List.length_nil] at h
      simp only [List.foldl_cons, List.foldl_nil]
      unfold BitWriter.WriteBit
      simp only [List.length_append, List.length_singleton]
      rw [if_pos (by omega)]
    · have hpos : 0 < bs.length := List.length_pos.mpr hbs
      have h1 : w.WriteBit b = { out := w.out, pending := w.pending ++ [b] } := by
        unfold BitWriter.WriteBit
        simp only [List.length_append, List.length_singleton]
        rw [if_neg (by omega)]
      simp only [List.foldl_cons, h1]
      rw [ih _ hbs (by simp only [List.length_append, List.length_singleton]; omega)]
      simp

theorem WriteList_byte (w : BitWriter) (hp : w.pending = []) (u : Nat) :
    (bitsMSB u 8).foldl BitWriter.WriteBit w =
      { out := w.out ++ [u % 256], pending := [] } := by
  have hne : bitsMSB u 8 ≠ [] := by
    intro h
    have := bitsMSB_length u 8
    rw [h] at this
    exact absurd this (by decide)
  rw [WriteList_fill _ w hne (by rw [hp, bitsMSB_length]; rfl), hp, List.nil_append,
    valMSB_bitsMSB]
  simp

theorem WriteList_byte_step (w : BitWriter) (hp : w.pending = []) (u k : Nat) :
    (bitsMSB u (k + 8)).foldl BitWriter.WriteBit w =
      (bitsMSB u k).foldl BitWriter.WriteBit
        { out := w.out ++ [u >>> k % 256], pending := [] } := by
  rw [Nat.add_comm, bitsMSB_add, List.foldl_append, WriteList_byte w hp]

theorem WriteBits_64 (w : BitWriter) (hp : w.pending = []) (v : Nat) :
    w.WriteBits v 64 =
      { out := w.out ++ [v >>> 56 % 256, v >>> 48 % 256, v >>> 40 % 256, v >>> 32 % 256,
                         v >>> 24 % 256, v >>> 16 % 256, v >>> 8 % 256, v % 256],
        pending := [] } := by
  unfold BitWriter.WriteBits
  show (bitsMSB v (56 + 8)).foldl BitWriter.WriteBit w = _
  rw [WriteList_byte_step w hp]
  show (bitsMSB v (48 + 8)).foldl BitWriter.WriteBit _ = _
  rw [WriteList_byte_step _ rfl]
  show (bitsMSB v (40 + 8)).foldl BitWriter.WriteBit _ = _
  rw [WriteList_byte_step _ rfl]
  show (bitsMSB v (32 + 8)).foldl BitWriter.WriteBit _ = _
  rw [WriteList_byte_step _ rfl]
  show (bitsMSB v (24 + 8)).foldl BitWriter.WriteBit _ = _
  rw [WriteList_byte_step _ rfl]
  show (bitsMSB v (16 + 8)).foldl BitWriter.WriteBit _ = _
  rw [WriteList_byte_step _ rfl]
  show (bitsMSB v (8 + 8)).foldl BitWriter.WriteBit _ = _
  rw [WriteList_byte_step _ rfl]
  show (bitsMSB v (0 + 8)).foldl BitWriter.WriteBit _ = _
  rw [WriteList_byte_step _ rfl]
  simp [bitsMSB]

theorem pushAll_New_wf (vs : List Nat) :
    (pushAll New vs).bw.pending.length < 8 ∧ (pushAll New vs).finished = false := by
  cases vs with
  | nil => exact ⟨by decide, rfl⟩
  | cons v0 vs =>
    have h1 := Push_first_stream New v0 rfl (by decide)
    have hfl := Push_fields New v0
    have h2 := pushAll_stream vs (New.Push v0) hfl.2.1 h1.2
    have hall : pushAll New (v0 :: vs) = pushAll (New.Push v0) vs := rfl
    rw [hall]
    exact ⟨h2.2.1, by rw [h2.2.2.2, hfl.2.2]; rfl⟩

theorem pushAll_same (n : Nat) (s : Series) (v : Nat) (hf : s.first = false)
    (hp : s.bw.pending.length < 8) (hv : s.val = v) :
    (pushAll s (List.replicate n v)).bw.stream = s.bw.stream ++ List.replicate n false ∧
      (pushAll s (List.replicate n v)).leading = s.leading ∧
      (pushAll s (List.replicate n v)).trailing = s.trailing := by
  induction n generalizing s with
  | zero => simp [pushAll]
  | succ n ih =>
    have hd : v ^^^ s.val = 0 := by rw [hv]; exact Nat.xor_self v
    have h1 := Push_stream s v hf hp
    have h2 := Push_fields s v
    have h3 := Push_window_keep s v hf (Or.inl hd)
    have hrec : record s v = [false] := by unfold record; simp [hd]
    have h4 := ih (s.Push v) h2.2.1 h1.2 h2.1
    simp only [pushAll, List.replicate_succ, List.foldl_cons] at h4 ⊢
    refine ⟨?_, by rw [h4.2.1, h3.1], by rw [h4.2.2, h3.2]⟩
    rw [h4.1, h1.1, hrec, List.append_assoc]
    rfl

/-! ## The encoder, sample by sample -/

/-- C5: a single pushed value `v` gives, after `Finish`, exactly the 8 bytes of the
pattern of `v`, most significant first; `NewIterator` succeeds on them with no bit left
to read, its first `Next` returns true without touching the reader, and `Values()` is
the pattern of `v`. -/
theorem single_sample (v : Nat) (hv : v < 2 ^ 64) :
    (New.Push v).Finish.Bytes =
        [v >>> 56 % 256, v >>> 48 % 256, v >>> 40 % 256, v >>> 32 % 256,
         v >>> 24 % 256, v >>> 16 % 256, v >>> 8 % 256, v % 256] ∧
      ∃ it, NewIterator (New.Push v).Finish.Bytes = .ok it ∧ it.Err = none ∧
        it.br.bits = [] ∧ it.Next.1 = true ∧ it.Next.2.br = it.br ∧
        it.Next.2.Values = v ∧ it.Next.2.Err = none := by
  have hpush : (New.Push v).bw = NewWriter.WriteBits v 64 := by
    unfold Series.Push; simp [New]
  have hw := WriteBits_64 NewWriter rfl v
  have h1 := Push_first_stream New v rfl (by decide)
  have hfl := Push_fields New v
  have hbits := Finish_bits (New.Push v) (by rw [hfl.2.2]; rfl) h1.2
  have hlen : (New.Push v).bw.stream.length = 64 := by
    rw [h1.1, List.length_append, bitsMSB_length]; rfl
  rw [hlen, h1.1] at hbits
  have hb : bytesBits (New.Push v).Finish.Bytes = bitsMSB v 64 ++ [] := by
    rw [hbits]; rfl
  have hnew := NewIterator_eq _ v [] hv hb
  constructor
  · have hfin : (New.Push v).finished = false := by rw [hfl.2.2]; rfl
    unfold Series.Finish Series.Bytes
    simp only [hfin, Bool.not_false, if_true]
    rw [hpush, hw]
    rfl
  · refine ⟨_, hnew, rfl, rfl, ?_⟩
    rw [Next_first _ rfl rfl rfl]
    exact ⟨rfl, rfl, rfl, rfl⟩

set_option maxRecDepth 100000 in
theorem single_sample_witness :
    bits12 < 2 ^ 64 ∧
      ((New.Push bits12).Finish.Bytes =
          [bits12 >>> 56 % 256, bits12 >>> 48 % 256, bits12 >>> 40 % 256,
           bits12 >>> 32 % 256, bits12 >>> 24 % 256, bits12 >>> 16 % 256,
           bits12 >>> 8 % 256, bits12 % 256] ∧
        ∃ it, NewIterator (New.Push bits12).Finish.Bytes = .ok it ∧ it.Err = none ∧
          it.br.bits = [] ∧ it.Next.1 = true ∧ it.Next.2.br = it.br ∧
          it.Next.2.Values = bits12 ∧ it.Next.2.Err = none) :=
  ⟨by decide, single_sample bits12 (by decide)⟩

/-- C6: pushing the same pattern `v` `N >= 1` times into a fresh series writes exactly
`64 + (N - 1)` bits, the 64 bits of `v` followed by `N - 1` zero control bits, and the
window stays unset. -/
theorem repeat_compression (v N : Nat) (hN : 1 ≤ N) :
    (pushAll New (List.replicate N v)).bw.stream =
        bitsMSB v 64 ++ List.replicate (N - 1) false ∧
      (pushAll New (List.replicate N v)).bw.stream.length = 64 + (N - 1) ∧
      (pushAll New (List.replicate N v)).leading = noWindow ∧
      (pushAll New (List.replicate N v)).trailing = 0 := by
  obtain ⟨n, rfl⟩ : ∃ n, N = n + 1 := ⟨N - 1, by omega⟩
  have h1 := Push_first_stream New v rfl (by decide)
  have hfl := Push_fields New v
  have hwin := Push_first_window New v rfl
  have h2 := pushAll_same n (New.Push v) v hfl.2.1 h1.2 hfl.1
  have hall : pushAll New (List.replicate (n + 1) v) =
      pushAll (New.Push v) (List.replicate n v) := rfl
  have hs : (pushAll New (List.replicate (n + 1) v)).bw.stream =
      bitsMSB v 64 ++ List.replicate n false := by
    rw [hall, h2.1, h1.1]; rfl
  refine ⟨by rw [hs]; rfl, ?_, ?_, ?_⟩
  · rw [hs, List.length_append, bitsMSB_length, List.length_replicate]; rfl
  · rw [hall, h2.2.1, hwin.1]; rfl
  · rw [hall, h2.2.2, hwin.2]; rfl

set_option maxRecDepth 100000 in
theorem repeat_compression_witness :
    1 ≤ 3 ∧
      ((pushAll New (List.replicate 3 bits12)).bw.stream =
          bitsMSB bits12 64 ++ List.replicate (3 - 1) false ∧
        (pushAll New (List.replicate 3 bits12)).bw.stream.length = 64 + (3 - 1) ∧
        (pushAll New (List.replicate 3 bits12)).leading = noWindow ∧
        (pushAll New (List.replicate 3 bits12)).trailing = 0) :=
  ⟨by decide, repeat_compression bits12 3 (by decide)⟩

/-- C7: after a `Push` that took the new-window branch and set the window to
`(L, T) = (Clz d1, Ctz d1)`, a `Push` whose nonzero delta `d2` has `Clz d2 >= L` and
`Ctz d2 >= T` appends exactly the bits 1, 0 and the low `64 - L - T` bits of `d2 >> T`,
most significant first, and leaves the window at `(L, T)`. -/
theorem window_reuse (s : Series) (v1 v2 : Nat) (hf : s.first = false)
    (hp : s.bw.pending.length < 8) (hval : s.val < 2 ^ 64) (hv1 : v1 < 2 ^ 64)
    (hd1 : v1 ^^^ s.val ≠ 0)
    (hnew : ¬ (s.leading ≠ noWindow ∧ Clz (v1 ^^^ s.val) ≥ s.leading ∧
      Ctz (v1 ^^^ s.val) ≥ s.trailing))
    (hd2 : v2 ^^^ v1 ≠ 0)
    (hL : Clz (v2 ^^^ v1) ≥ Clz (v1 ^^^ s.val))
    (hT : Ctz (v2 ^^^ v1) ≥ Ctz (v1 ^^^ s.val)) :
    (s.Push v1).leading = Clz (v1 ^^^ s.val) ∧ (s.Push v1).trailing = Ctz (v1 ^^^ s.val) ∧
      ((s.Push v1).Push v2).bw.stream =
        (s.Push v1).bw.stream ++ [true, false] ++
          bitsMSB ((v2 ^^^ v1) >>> Ctz (v1 ^^^ s.val))
            (64 - Clz (v1 ^^^ s.val) - Ctz (v1 ^^^ s.val)) ∧
      ((s.Push v1).Push v2).leading = Clz (v1 ^^^ s.val) ∧
      ((s.Push v1).Push v2).trailing = Ctz (v1 ^^^ s.val) := by
  have hwn := Push_window_new s v1 hf hd1 hnew
  have hfl := Push_fields s v1
  have hst := Push_stream s v1 hf hp
  have hd64 : v1 ^^^ s.val < 2 ^ 64 := Nat.xor_lt_two_pow hv1 hval
  have hLT := Clz_add_Ctz _ hd1 hd64
  have hne : (s.Push v1).leading ≠ noWindow := by
    rw [hwn.1]; unfold noWindow; omega
  have hw : (s.Push v1).leading ≠ noWindow ∧
      Clz (v2 ^^^ (s.Push v1).val) ≥ (s.Push v1).leading ∧
      Ctz (v2 ^^^ (s.Push v1).val) ≥ (s.Push v1).trailing := by
    refine ⟨hne, ?_, ?_⟩
    · rw [hfl.1, hwn.1]; exact hL
    · rw [hfl.1, hwn.2]; exact hT
  have hkeep := Push_window_keep (s.Push v1) v2 hfl.2.1 (Or.inr hw)
  have hst2 := Push_stream (s.Push v1) v2 hfl.2.1 hst.2
  have hrec : record (s.Push v1) v2 = [true, false] ++
      bitsMSB ((v2 ^^^ v1) >>> Ctz (v1 ^^^ s.val))
        (64 - Clz (v1 ^^^ s.val) - Ctz (v1 ^^^ s.val)) := by
    unfold record
    have hd2' : v2 ^^^ (s.Push v1).val ≠ 0 := by rw [hfl.1]; exact hd2
    simp only [hd2', if_false, if_pos hw]
    rw [hfl.1, hwn.1, hwn.2, width_small _ _ (by omega)]
    unfold shr64
    rw [if_neg (by omega)]
  refine ⟨hwn.1, hwn.2, ?_, by rw [hkeep.1, hwn.1], by rw [hkeep.2, hwn.2]⟩
  rw [hst2.1, hrec, List.append_assoc]

set_option maxRecDepth 100000 in
theorem window_reuse_witness :
    (New.Push bits24).first = false ∧ (New.Push bits24).bw.pending.length < 8 ∧
      (New.Push bits24).val < 2 ^ 64 ∧ bits13 < 2 ^ 64 ∧
      bits13 ^^^ (New.Push bits24).val ≠ 0 ∧ bits24 ^^^ bits13 ≠ 0 ∧
      (((New.Push bits24).Push bits13).Push bits24).bw.stream =
        ((New.Push bits24).Push bits13).bw.stream ++ [true, false] ++
          bitsMSB ((bits24 ^^^ bits13) >>> Ctz (bits13 ^^^ (New.Push bits24).val))
            (64 - Clz (bits13 ^^^ (New.Push bits24).val) -
              Ctz (bits13 ^^^ (New.Push bits24).val)) :=
  ⟨by decide, by decide, by decide, by decide, by decide, by decide,
    (window_reuse (New.Push bits24) bits13 bits24 (by decide) (by decide) (by decide)
      (by decide) (by decide) (by decide) (by decide) (by decide) (by decide)).2.2.1⟩

/-- C8: a non-first `Push` with nonzero delta `d` that does not reuse the window appends
exactly the bits 1, 1, then `Clz d mod 32` in 5 bits, then `(64 - Clz d - Ctz d) mod 64`
in 6 bits, then the low `64 - Clz d - Ctz d` bits of `d >> Ctz d`, and sets the window to
the untruncated `(Clz d, Ctz d)`; with `Clz d >= 32` the 5-bit field holds `Clz d - 32`,
and with `Clz d = Ctz d = 0` the 6-bit field holds 0 while 64 payload bits follow. -/
theorem new_window_layout (s : Series) (v : Nat) (hf : s.first = false)
    (hp : s.bw.pending.length < 8) (hval : s.val < 2 ^ 64) (hv : v < 2 ^ 64)
    (hd : v ^^^ s.val ≠ 0)
    (hnew : s.leading = noWindow ∨ Clz (v ^^^ s.val) < s.leading ∨
      Ctz (v ^^^ s.val) < s.trailing) :
    (s.Push v).bw.stream =
        s.bw.stream ++ [true, true] ++ bitsMSB (Clz (v ^^^ s.val) % 32) 5 ++
          bitsMSB ((64 - Clz (v ^^^ s.val) - Ctz (v ^^^ s.val)) % 64) 6 ++
          bitsMSB ((v ^^^ s.val) >>> Ctz (v ^^^ s.val))
            (64 - Clz (v ^^^ s.val) - Ctz (v ^^^ s.val)) ∧
      (s.Push v).leading = Clz (v ^^^ s.val) ∧ (s.Push v).trailing = Ctz (v ^^^ s.val) ∧
      (32 ≤ Clz (v ^^^ s.val) → Clz (v ^^^ s.val) % 32 = Clz (v ^^^ s.val) - 32) ∧
      (Clz (v ^^^ s.val) = 0 ∧ Ctz (v ^^^ s.val) = 0 →
        (64 - Clz (v ^^^ s.val) - Ctz (v ^^^ s.val)) % 64 = 0 ∧
          64 - Clz (v ^^^ s.val) - Ctz (v ^^^ s.val) = 64) := by
  have hw : ¬ (s.leading ≠ noWindow ∧ Clz (v ^^^ s.val) ≥ s.leading ∧
      Ctz (v ^^^ s.val) ≥ s.trailing) := by
    intro h
    rcases hnew with h1 | h1 | h1
    · exact h.1 h1
    · omega
    · omega
  have hwn := Push_window_new s v hf hd hw
  have hst := Push_stream s v hf hp
  have hd64 : v ^^^ s.val < 2 ^ 64 := Nat.xor_lt_two_pow hv hval
  have hLT := Clz_add_Ctz _ hd hd64
  have hsig := sigbits_eq _ hd hd64
  have hrec : record s v = [true, true] ++ bitsMSB (Clz (v ^^^ s.val) % 32) 5 ++
      bitsMSB ((64 - Clz (v ^^^ s.val) - Ctz (v ^^^ s.val)) % 64) 6 ++
      bitsMSB ((v ^^^ s.val) >>> Ctz (v ^^^ s.val))
        (64 - Clz (v ^^^ s.val) - Ctz (v ^^^ s.val)) := by
    unfold record
    simp only [hd, if_false, if_neg hw]
    rw [hsig, toInt_small _ (by have : (2:Nat) ^ 63 = 9223372036854775808 := by norm_num
                                omega)]
    have h5 := bitsMSB_mod (Clz (v ^^^ s.val)) 5
    have h6 := bitsMSB_mod (64 - Clz (v ^^^ s.val) - Ctz (v ^^^ s.val)) 6
    have e5 : (2:Nat) ^ 5 = 32 := by norm_num
    have e6 : (2:Nat) ^ 6 = 64 := by norm_num
    rw [e5] at h5
    rw [e6] at h6
    rw [h5, h6]
    unfold shr64
    rw [if_neg (by omega)]
    simp
  refine ⟨?_, hwn.1, hwn.2, fun h => by omega, fun h => by omega⟩
  rw [hst.1, hrec]
  simp

set_option maxRecDepth 100000 in
theorem new_window_layout_witness :
    (New.Push bits12).first = false ∧ (New.Push bits12).val < 2 ^ 64 ∧
      bits12 + 1 < 2 ^ 64 ∧ Clz ((bits12 + 1) ^^^ (New.Push bits12).val) = 63 ∧
      ((New.Push bits12).Push (bits12 + 1)).bw.stream =
        (New.Push bits12).bw.stream ++ [true, true] ++
          bitsMSB (Clz ((bits12 + 1) ^^^ (New.Push bits12).val) % 32) 5 ++
          bitsMSB ((64 - Clz ((bits12 + 1) ^^^ (New.Push bits12).val) -
            Ctz ((bits12 + 1) ^^^ (New.Push bits12).val)) % 64) 6 ++
          bitsMSB (((bits12 + 1) ^^^ (New.Push bits12).val) >>>
              Ctz ((bits12 + 1) ^^^ (New.Push bits12).val))
            (64 - Clz ((bits12 + 1) ^^^ (New.Push bits12).val) -
              Ctz ((bits12 + 1) ^^^ (New.Push bits12).val)) :=
  ⟨by decide, by decide, by decide, by decide,
    (new_window_layout (New.Push bits12) (bits12 + 1) (by decide) (by decide) (by decide)
      (by decide) (by decide) (by decide)).1⟩

/-- C9: `Finish` is idempotent: in every encoder state a second call changes nothing. -/
theorem Finish_idempotent (s : Series) : s.Finish.Finish = s.Finish := by
  unfold Series.Finish
  cases h : s.finished <;> simp [h]

/-- C10: after any sequence of pushes writing `n` bits, `Finish` leaves exactly
`ceil(n / 8)` bytes whose bits are the `n` written bits followed by fewer than 8 zero
bits, and adds nothing when `n` is a multiple of 8. -/
theorem finish_zero_padding (vs : List Nat) :
    (pushAll New vs).Finish.Bytes.length = ((pushAll New vs).bw.stream.length + 7) / 8 ∧
      bytesBits (pushAll New vs).Finish.Bytes =
        (pushAll New vs).bw.stream ++
          List.replicate (padding (pushAll New vs).bw.stream.length) false ∧
      padding (pushAll New vs).bw.stream.length < 8 ∧
      ((pushAll New vs).bw.stream.length % 8 = 0 →
        (pushAll New vs).Finish.Bytes = (pushAll New vs).Bytes ∧
          (pushAll New vs).Finish.bw = (pushAll New vs).bw) := by
  obtain ⟨hp, hfin⟩ := pushAll_New_wf vs
  have hbits := Finish_bits (pushAll New vs) hfin hp
  have hlen := congrArg List.length hbits
  rw [bytesBits_length, List.length_append, List.length_replicate] at hlen
  have hsl := stream_length (pushAll New vs).bw
  refine ⟨?_, hbits, ?_, ?_⟩
  · unfold padding at hlen; omega
  · unfold padding; omega
  · intro h8
    have hnil : (pushAll New vs).bw.pending = [] := by
      apply List.eq_nil_of_length_eq_zero
      omega
    have hflush : (pushAll New vs).bw.Flush false = (pushAll New vs).bw := by
      unfold BitWriter.Flush
      rw [if_pos hnil]
    unfold Series.Finish Series.Bytes
    simp only [hfin, Bool.not_false, if_true, hflush, and_self]

/-! ## The decoder on arbitrary bytes -/

theorem NewIterator_ok (b : List Nat) (h : 8 ≤ b.length) :
    NewIterator b = .ok { val := valMSB 0 ((bytesBits b).take 64), leading := 0,
                          trailing := 0, br := { bits := (bytesBits b).drop 64 },
                          first := true, finished := false, err := none } := by
  unfold NewIterator BitReader.ReadBits NewReader
  have hl := bytesBits_length b
  have h64 : ((64 : Int)).toNat = 64 := rfl
  simp only [h64]
  rw [if_neg (by omega)]

theorem NewIterator_short (b : List Nat) (h : b.length < 8) :
    NewIterator b = .error Error.EOF := by
  unfold NewIterator BitReader.ReadBits NewReader
  have hl := bytesBits_length b
  have h64 : ((64 : Int)).toNat = 64 := rfl
  simp only [h64]
  rw [if_pos (by omega)]

theorem Next_finished (it : Iter) : it.Next.2.finished = it.finished := by
  unfold Iter.Next
  simp only []
  repeat' split
  all_goals rfl

theorem Next_false_again (it : Iter) (h : it.Next.1 = false) :
    it.Next.2.Next = (false, it.Next.2) := by
  by_cases hs : it.err ≠ none ∨ it.finished = true
  · have h1 : it.Next = (false, it) := by
      unfold Iter.Next
      rw [if_pos hs]
    rw [h1]
    exact h1
  · have hfin : it.finished = false := by
      cases hf : it.finished
      · rfl
      · exact absurd (Or.inr hf) hs
    have herr := Next_false_err it hfin h
    have h2 : it.Next.2.err ≠ none ∨ it.Next.2.finished = true := Or.inl herr
    show Iter.Next it.Next.2 = (false, it.Next.2)
    generalize it.Next.2 = it2 at h2
    unfold Iter.Next
    rw [if_pos h2]

theorem nextN_stuck (n : Nat) (it : Iter) (h : it.Next = (false, it)) : nextN n it = it := by
  induction n with
  | zero => rfl
  | succ n ih => simp only [nextN, h, ih]

theorem trace_stuck (n : Nat) (it : Iter) (h : it.Next = (false, it)) :
    trace n it = List.replicate n (false, it.Values, it.Err) := by
  induction n with
  | zero => rfl
  | succ n ih => simp only [trace, h, ih, List.replicate_succ]

theorem nextN_finished (n : Nat) (it : Iter) : (nextN n it).finished = it.finished := by
  induction n generalizing it with
  | zero => rfl
  | succ n ih => simp only [nextN, ih, Next_finished]

theorem nextN_succ_last (n : Nat) (it : Iter) : nextN (n + 1) it = (nextN n it).Next.2 := by
  rw [nextN_add]
  rfl

theorem ReadBit_ok (r r1 : BitReader) (b : Bool) (h : r.ReadBit = .ok (b, r1)) :
    r.bits = b :: r1.bits := by
  unfold BitReader.ReadBit at h
  split at h
  · exact absurd h (by simp)
  · rename_i b2 rest hb
    simp only [Except.ok.injEq, Prod.mk.injEq] at h
    rw [hb, h.1, ← h.2]

theorem ReadBits_ok (r r1 : BitReader) (k : Int) (v : Nat) (h : r.ReadBits k = .ok (v, r1)) :
    k.toNat ≤ r.bits.length ∧ v = valMSB 0 (r.bits.take k.toNat) ∧
      r1.bits = r.bits.drop k.toNat := by
  unfold BitReader.ReadBits at h
  split at h
  · exact absurd h (by simp)
  · rename_i hlt
    simp only [Except.ok.injEq, Prod.mk.injEq] at h
    refine ⟨by omega, h.1.symm, by rw [← h.2]⟩

theorem ReadBits_ok_length (r r1 : BitReader) (k : Int) (v : Nat)
    (h : r.ReadBits k = .ok (v, r1)) : r1.bits.length ≤ r.bits.length := by
  rw [(ReadBits_ok r r1 k v h).2.2, List.length_drop]
  omega

theorem ReadBit_ok_length (r r1 : BitReader) (b : Bool) (h : r.ReadBit = .ok (b, r1)) :
    r1.bits.length + 1 = r.bits.length := by
  rw [ReadBit_ok r r1 b h]
  rfl

/-- The four ways a call of `Next` can go: stuck on a recorded error, the first call, a
read failure (value, `first` and `finished` untouched), or a decoded record (at least
one bit consumed). -/
theorem Next_cases (it : Iter) :
    it.Next = (false, it) ∨
    (it.err = none ∧ it.first = true ∧ it.Next = (true, { it with first := false })) ∨
    (it.err = none ∧ it.first = false ∧ ∃ br l t e,
      it.Next = (false, { it with br := br, leading := l, trailing := t, err := some e }) ∧
        br.bits.length ≤ it.br.bits.length) ∨
    (it.err = none ∧ it.first = false ∧ ∃ br l t v,
      it.Next = (true, { it with br := br, leading := l, trailing := t, val := v }) ∧
        br.bits.length + 1 ≤ it.br.bits.length) := by
  by_cases hs : it.err ≠ none ∨ it.finished = true
  · left
    unfold Iter.Next
    rw [if_pos hs]
  · have herr : it.err = none := by
      by_contra h; exact hs (Or.inl h)
    have hfin : it.finished = false := by
      cases hf : it.finished
      · rfl
      · exact absurd (Or.inr hf) hs
    right
    cases hf : it.first
    swap
    · left
      exact ⟨herr, rfl, by simp [Iter.Next, herr, hfin, hf]⟩
    right
    rcases h1 : it.br.ReadBit with e | ⟨bit, br1⟩
    · left
      exact ⟨herr, rfl, it.br, it.leading, it.trailing, e,
        by simp [Iter.Next, herr, hfin, hf, h1], Nat.le_refl _⟩
    have l1 := ReadBit_ok_length _ _ _ h1
    cases bit
    · right
      exact ⟨herr, rfl, br1, it.leading, it.trailing, it.val,
        by simp [Iter.Next, herr, hfin, hf, h1], by omega⟩
    rcases h2 : br1.ReadBit with e | ⟨bit2, br2⟩
    · left
      exact ⟨herr, rfl, br1, it.leading, it.trailing, e,
        by simp [Iter.Next, herr, hfin, hf, h1, h2], by omega⟩
    have l2 := ReadBit_ok_length _ _ _ h2
    cases bit2
    · rcases h3 : br2.ReadBits (toInt (sub64 (sub64 64 it.leading) it.trailing)) with
        e | ⟨bits, br3⟩
      · left
        exact ⟨herr, rfl, br2, it.leading, it.trailing, e,
          by simp [Iter.Next, herr, hfin, hf, h1, h2, h3], by omega⟩
      · have l3 := ReadBits_ok_length _ _ _ _ h3
        right
        exact ⟨herr, rfl, br3, it.leading, it.trailing, _,
          by simp [Iter.Next, herr, hfin, hf, h1, h2, h3]; rfl, by omega⟩
    rcases h3 : br2.ReadBits 5 with e | ⟨lead, br3⟩
    · left
      exact ⟨herr, rfl, br2, it.leading, it.trailing, e,
        by simp [Iter.Next, herr, hfin, hf, h1, h2, h3], by omega⟩
    have l3 := ReadBits_ok_length _ _ _ _ h3
    rcases h4 : br3.ReadBits 6 with e | ⟨sig, br4⟩
    · left
      exact ⟨herr, rfl, br3, lead, it.trailing, e,
        by simp [Iter.Next, herr, hfin, hf, h1, h2, h3, h4], by omega⟩
    have l4 := ReadBits_ok_length _ _ _ _ h4
    rcases h5 : br4.ReadBits (toInt (sub64 (sub64 64 lead) (sub64 (sub64 64 lead) sig))) with
      e | ⟨bits, br5⟩
    · left
      exact ⟨herr, rfl, br4, lead, sub64 (sub64 64 lead) sig, e,
        by simp [Iter.Next, herr, hfin, hf, h1, h2, h3, h4, h5], by omega⟩
    · have l5 := ReadBits_ok_length _ _ _ _ h5
      right
      exact ⟨herr, rfl, br5, lead, sub64 (sub64 64 lead) sig, _,
        by simp [Iter.Next, herr, hfin, hf, h1, h2, h3, h4, h5]; rfl, by omega⟩

theorem Next_measure (it : Iter) :
    it.Next.2.measure + (if it.Next.1 then 1 else 0) ≤ it.measure := by
  rcases Next_cases it with h | ⟨_, hf, h⟩ | ⟨_, hf, br, l, t, e, h, hl⟩ |
    ⟨_, hf, br, l, t, v, h, hl⟩
  · rw [h]; simp
  · rw [h]; simp [Iter.measure, hf]
  · rw [h]; simp [Iter.measure, hf]; omega
  · rw [h]; simp [Iter.measure, hf]; omega

theorem Next_first_false (it : Iter) (hf : it.first = false) : it.Next.2.first = false := by
  rcases Next_cases it with h | ⟨_, hf2, h⟩ | ⟨_, _, br, l, t, e, h, _⟩ |
    ⟨_, _, br, l, t, v, h, _⟩
  · rw [h]; exact hf
  · rw [h]
  · rw [h]; exact hf
  · rw [h]; exact hf

theorem nextN_first_false (n : Nat) (it : Iter) (hf : it.first = false) :
    (nextN n it).first = false := by
  induction n generalizing it with
  | zero => exact hf
  | succ n ih => exact ih _ (Next_first_false it hf)

theorem Next_true_consumes (it : Iter) (hf : it.first = false) (h : it.Next.1 = true) :
    it.Next.2.br.bits.length + 1 ≤ it.br.bits.length := by
  have hm := Next_measure it
  have hf2 := Next_first_false it hf
  unfold Iter.measure at hm
  rw [hf2, hf, h] at hm
  simpa using hm

theorem trace_true_count (n : Nat) (it : Iter) :
    ((trace n it).filter (fun r => r.1)).length ≤ it.measure := by
  induction n generalizing it with
  | zero => simp [trace]
  | succ n ih =>
    have hm := Next_measure it
    have h := ih it.Next.2
    simp only [trace]
    cases hr : it.Next.1
    · rw [hr] at hm
      simp only [List.filter_cons, hr]
      simp at hm ⊢
      omega
    · rw [hr] at hm
      simp only [List.filter_cons, hr]
      simp at hm ⊢
      omega

theorem Next_true_measure (n : Nat) (it : Iter) (h : (nextN n it).Next.1 = true) :
    n + 1 ≤ it.measure := by
  induction n generalizing it with
  | zero =>
    have hm := Next_measure it
    simp only [nextN] at h
    rw [h] at hm
    simp at hm
    omega
  | succ n ih =>
    simp only [nextN] at h
    have h1 := ih it.Next.2 h
    have hm := Next_measure it
    cases hr : it.Next.1
    · have hstuck := Next_false_again it hr
      rw [nextN_stuck n _ hstuck, hstuck] at h
      exact absurd h (by simp)
    · rw [hr] at hm
      simp at hm
      omega

/-! ## The iterator: construction, failure, termination -/

/-- C11: `NewIterator(b)` fails (no iterator) exactly when `b` has fewer than 8 bytes,
that is fewer than 64 bits; otherwise the iterator's value is the first 64 bits of `b`,
most significant first, `Err()` is nil, and the first `Next` returns true leaving the
reader and the value as they are. -/
theorem iterator_construction (b : List Nat) :
    ((∃ e, NewIterator b = .error e) ↔ b.length < 8) ∧
      (b.length < 8 ↔ (bytesBits b).length < 64) ∧
      (8 ≤ b.length → ∃ it, NewIterator b = .ok it ∧
        it.Values = valMSB 0 ((bytesBits b).take 64) ∧ it.Err = none ∧
        it.br.bits = (bytesBits b).drop 64 ∧ it.Next.1 = true ∧
        it.Next.2.br = it.br ∧ it.Next.2.Values = it.Values ∧ it.Next.2.Err = none) := by
  refine ⟨⟨?_, ?_⟩, ?_, ?_⟩
  · rintro ⟨e, he⟩
    by_contra hlen
    rw [NewIterator_ok b (by omega)] at he
    exact absurd he (by simp)
  · intro h
    exact ⟨Error.EOF, NewIterator_short b h⟩
  · rw [bytesBits_length]; omega
  · intro h
    refine ⟨_, NewIterator_ok b h, rfl, rfl, rfl, ?_⟩
    rw [Next_first _ rfl rfl rfl]
    exact ⟨rfl, rfl, rfl, rfl⟩

set_option maxRecDepth 100000 in
theorem iterator_construction_witness :
    8 ≤ [64, 40, 0, 0, 0, 0, 0, 0, 107].length ∧
      ∃ it, NewIterator [64, 40, 0, 0, 0, 0, 0, 0, 107] = .ok it ∧
        it.Values = valMSB 0 ((bytesBits [64, 40, 0, 0, 0, 0, 0, 0, 107]).take 64) ∧
        it.Err = none ∧
        it.br.bits = (bytesBits [64, 40, 0, 0, 0, 0, 0, 0, 107]).drop 64 ∧
        it.Next.1 = true ∧ it.Next.2.br = it.br ∧ it.Next.2.Values = it.Values ∧
        it.Next.2.Err = none :=
  ⟨by decide, (iterator_construction [64, 40, 0, 0, 0, 0, 0, 0, 107]).2.2 (by decide)⟩

/-- C12: once a call of `Next` on an iterator over any byte buffer has returned false,
every later call returns false and leaves the iterator, its reader included, as it is,
so `Err()` keeps the error recorded by the failing call. -/
theorem sticky_failure (b : List Nat) (it0 : Iter) (h0 : NewIterator b = .ok it0)
    (k : Nat) (h : (nextN k it0).Next.1 = false) (n : Nat) :
    (nextN (k + 1) it0).Err ≠ none ∧
      trace n (nextN (k + 1) it0) =
        List.replicate n (false, (nextN (k + 1) it0).Values, (nextN (k + 1) it0).Err) ∧
      nextN n (nextN (k + 1) it0) = nextN (k + 1) it0 := by
  have hfin0 : it0.finished = false := by
    unfold NewIterator at h0
    split at h0
    · exact absurd h0 (by simp)
    · simp only [Except.ok.injEq] at h0
      rw [← h0]
  have hfin : (nextN k it0).finished = false := by rw [nextN_finished, hfin0]
  have hstuck := Next_false_again _ h
  rw [nextN_succ_last]
  exact ⟨Next_false_err _ hfin h, trace_stuck n _ hstuck, nextN_stuck n _ hstuck⟩

set_option maxRecDepth 100000 in
theorem sticky_failure_witness :
    ∃ it0, NewIterator [64, 40, 0, 0, 0, 0, 0, 0] = .ok it0 ∧
      (nextN 1 it0).Next.1 = false ∧ (nextN (1 + 1) it0).Err ≠ none ∧
      trace 3 (nextN (1 + 1) it0) =
        List.replicate 3 (false, (nextN (1 + 1) it0).Values, (nextN (1 + 1) it0).Err) ∧
      nextN 3 (nextN (1 + 1) it0) = nextN (1 + 1) it0 :=
  ⟨_, NewIterator_ok [64, 40, 0, 0, 0, 0, 0, 0] (by decide), by decide,
    sticky_failure [64, 40, 0, 0, 0, 0, 0, 0] _
      (NewIterator_ok [64, 40, 0, 0, 0, 0, 0, 0] (by decide)) 1 (by decide) 3⟩

/-- C15: on any buffer of at least 8 bytes, every call of `Next` after the first that
returns true consumes at least one bit, at most `1 + 8 * (len(b) - 8)` calls return true,
and every call from number `2 + 8 * (len(b) - 8)` on returns false. -/
theorem decoding_stops (b : List Nat) (h8 : 8 ≤ b.length) :
    ∃ it0, NewIterator b = .ok it0 ∧
      (∀ k, 1 ≤ k → (nextN k it0).Next.1 = true →
        (nextN (k + 1) it0).br.bits.length + 1 ≤ (nextN k it0).br.bits.length) ∧
      (∀ n, ((trace n it0).filter (fun r => r.1)).length ≤ 1 + 8 * (b.length - 8)) ∧
      (∀ n, 1 + 8 * (b.length - 8) ≤ n → (nextN n it0).Next.1 = false) := by
  obtain ⟨it0, hit, hfirst, herr, hfin, hbits⟩ : ∃ it0, NewIterator b = .ok it0 ∧
      it0.first = true ∧ it0.err = none ∧ it0.finished = false ∧
      it0.br.bits = (bytesBits b).drop 64 := ⟨_, NewIterator_ok b h8, rfl, rfl, rfl, rfl⟩
  have hl := bytesBits_length b
  have hm : it0.measure = 1 + 8 * (b.length - 8) := by
    unfold Iter.measure
    rw [hbits, hfirst, List.length_drop, hl]
    simp only [if_true]
    omega
  refine ⟨it0, hit, ?_, ?_, ?_⟩
  · intro k hk hnext
    obtain ⟨j, rfl⟩ : ∃ j, k = j + 1 := ⟨k - 1, by omega⟩
    have hf : (nextN (j + 1) it0).first = false := by
      simp only [nextN]
      rw [Next_first _ hfirst herr hfin]
      exact nextN_first_false j _ rfl
    rw [nextN_succ_last (j + 1)]
    exact Next_true_consumes _ hf hnext
  · intro n
    rw [← hm]
    exact trace_true_count n it0
  · intro n hn
    cases hr : (nextN n it0).Next.1
    · rfl
    · have h := Next_true_measure n _ hr
      omega

set_option maxRecDepth 100000 in
theorem decoding_stops_witness :
    8 ≤ [64, 40, 0, 0, 0, 0, 0, 0, 107].length ∧
      ∃ it0, NewIterator [64, 40, 0, 0, 0, 0, 0, 0, 107] = .ok it0 ∧
        (∀ n, ((trace n it0).filter (fun r => r.1)).length ≤
          1 + 8 * ([64, 40, 0, 0, 0, 0, 0, 0, 107].length - 8)) ∧
        (∀ n, 1 + 8 * ([64, 40, 0, 0, 0, 0, 0, 0, 107].length - 8) ≤ n →
          (nextN n it0).Next.1 = false) :=
  ⟨by decide,
    (decoding_stops [64, 40, 0, 0, 0, 0, 0, 0, 107] (by decide)).imp
      (fun _ h => ⟨h.1, h.2.2.1, h.2.2.2⟩)⟩

/-- C19: a call of `Next` that returns false, also after part of a record was read,
leaves `Values()` as it was before the call. -/
theorem failed_Next_keeps_value (it : Iter) (h : it.Next.1 = false) :
    it.Next.2.Values = it.Values := by
  rcases Next_cases it with h1 | ⟨_, _, h1⟩ | ⟨_, _, br, l, t, e, h1, _⟩ |
    ⟨_, _, br, l, t, v, h1, _⟩
  · rw [h1]
  · rw [h1] at h; exact absurd h (by simp)
  · rw [h1]; rfl
  · rw [h1] at h; exact absurd h (by simp)

set_option maxRecDepth 100000 in
theorem failed_Next_keeps_value_witness :
    ({ val := bits12, leading := 0, trailing := 0,
       br := { bits := [true, true, false, false, false, false, true, true] },
       first := false, finished := false, err := none } : Iter).Next.1 = false ∧
    ({ val := bits12, leading := 0, trailing := 0,
       br := { bits := [true, true, false, false, false, false, true, true] },
       first := false, finished := false, err := none } : Iter).Next.2.leading = 1 ∧
    ({ val := bits12, leading := 0, trailing := 0,
       br := { bits := [true, true, false, false, false, false, true, true] },
       first := false, finished := false, err := none } : Iter).Next.2.Values =
    ({ val := bits12, leading := 0, trailing := 0,
       br := { bits := [true, true, false, false, false, false, true, true] },
       first := false, finished := false, err := none } : Iter).Values :=
  ⟨by decide, by decide, failed_Next_keeps_value _ (by decide)⟩

/-! ## Encoder and decoder side by side -/

theorem lowZeros_le (f x : Nat) : lowZeros f x ≤ f := by
  induction f generalizing x with
  | zero => simp [lowZeros]
  | succ f ih =>
    unfold lowZeros
    split
    · omega
    · have := ih (x / 2); omega

/-- What `fits` says, for any delta. -/
theorem fits_iff (d : Nat) :
    fits d = true ↔ d = 0 ∨ (Clz d ≤ 31 ∧ 1 ≤ Clz d + Ctz d) := by
  have h1 : Clz d ≤ 64 := by unfold Clz; omega
  have h2 : Ctz d ≤ 64 := lowZeros_le 64 d
  unfold fits
  simp only [Bool.or_eq_true, beq_iff_eq, Bool.and_eq_true, decide_eq_true_eq]
  unfold sub64
  constructor
  · rintro (h | ⟨h3, h4⟩)
    · exact Or.inl h
    · exact Or.inr ⟨by omega, by omega⟩
  · rintro (h | ⟨h3, h4⟩)
    · exact Or.inl h
    · exact Or.inr ⟨by omega, by omega⟩

theorem records_append (a b : List Nat) (s : Series) :
    records s (a ++ b) = records s a ++ records (pushAll s a) b := by
  induction a generalizing s with
  | nil => rfl
  | cons v vs ih =>
    have h := ih (s.Push v)
    show record s v ++ records (s.Push v) (vs ++ b) =
      (record s v ++ records (s.Push v) vs) ++ records (pushAll (s.Push v) vs) b
    rw [h, List.append_assoc]

/-- The iterator `Series.Iter` gives on a finished series: the first value, the initial
window `(0, 0)`, and the records and the padding still to read. -/
theorem Iter_bits (v0 : Nat) (vs : List Nat) (hv0 : v0 < 2 ^ 64) :
    ∃ it0, (pushAll New (v0 :: vs)).Finish.Iter = some it0 ∧ it0.val = v0 ∧
      it0.leading = 0 ∧ it0.trailing = 0 ∧ it0.first = true ∧ it0.finished = false ∧
      it0.err = none ∧
      it0.br.bits = records (New.Push v0) vs ++
        List.replicate (padding (pushAll New (v0 :: vs)).bw.stream.length) false := by
  have h1 := Push_first_stream New v0 rfl (by decide)
  have hfl := Push_fields New v0
  have hall : pushAll New (v0 :: vs) = pushAll (New.Push v0) vs := rfl
  have h2 := pushAll_stream vs (New.Push v0) hfl.2.1 h1.2
  have hfin : (pushAll New (v0 :: vs)).finished = false := by
    rw [hall, h2.2.2.2, hfl.2.2]; rfl
  have hstream : (pushAll New (v0 :: vs)).bw.stream =
      bitsMSB v0 64 ++ records (New.Push v0) vs := by
    rw [hall, h2.1, h1.1]; rfl
  have hbits := Finish_bits (pushAll New (v0 :: vs)) hfin (by rw [hall]; exact h2.2.1)
  obtain ⟨pad, hpad⟩ : ∃ pad : List Bool, pad =
      List.replicate (padding (pushAll New (v0 :: vs)).bw.stream.length) false := ⟨_, rfl⟩
  rw [← hpad] at hbits ⊢
  rw [hstream, List.append_assoc] at hbits
  have hnew := NewIterator_eq _ v0 _ hv0 hbits
  exact ⟨_, by unfold Series.Iter; rw [hnew], rfl, rfl, rfl, rfl, rfl, rfl, rfl⟩

theorem ReadBits_ok_lt (r r1 : BitReader) (k : Int) (v : Nat)
    (h : r.ReadBits k = .ok (v, r1)) : v < 2 ^ k.toNat := by
  obtain ⟨h1, h2, _⟩ := ReadBits_ok r r1 k v h
  have h3 := valMSB_lt (r.bits.take k.toNat)
  rw [List.length_take, Nat.min_eq_left h1, ← h2] at h3
  exact h3

/-- A call of `Next` leaves the window alone unless the bits it reads start with 1, 1;
in that case the new `leading` is a 5-bit number and, unless the call failed, the new
`trailing` is `64 - leading - sigbits` for a 6-bit `sigbits`. -/
theorem Next_window (it : Iter) :
    (it.Next.2.leading = it.leading ∧ it.Next.2.trailing = it.trailing) ∨
    (∃ tail, it.br.bits = true :: true :: tail ∧ it.Next.2.leading < 32 ∧
      (it.Next.2.err ≠ none ∨
        ∃ sig, sig < 64 ∧ it.Next.2.trailing = sub64 (sub64 64 it.Next.2.leading) sig)) := by
  by_cases hs : it.err ≠ none ∨ it.finished = true
  · left
    unfold Iter.Next
    rw [if_pos hs]
    exact ⟨rfl, rfl⟩
  · have herr : it.err = none := by
      by_contra h; exact hs (Or.inl h)
    have hfin : it.finished = false := by
      cases hf : it.finished
      · rfl
      · exact absurd (Or.inr hf) hs
    cases hf : it.first
    swap
    · left
      simp [Iter.Next, herr, hfin, hf]
    rcases h1 : it.br.ReadBit with e | ⟨bit, br1⟩
    · left
      simp [Iter.Next, herr, hfin, hf, h1]
    have b1 := ReadBit_ok _ _ _ h1
    cases bit
    · left
      simp [Iter.Next, herr, hfin, hf, h1]
    rcases h2 : br1.ReadBit with e | ⟨bit2, br2⟩
    · left
      simp [Iter.Next, herr, hfin, hf, h1, h2]
    have b2 := ReadBit_ok _ _ _ h2
    cases bit2
    · left
      rcases h3 : br2.ReadBits (toInt (sub64 (sub64 64 it.leading) it.trailing)) with
        e | ⟨bits, br3⟩
      · simp [Iter.Next, herr, hfin, hf, h1, h2, h3]
      · simp [Iter.Next, herr, hfin, hf, h1, h2, h3]
    rcases h3 : br2.ReadBits 5 with e | ⟨lead, br3⟩
    · left
      simp [Iter.Next, herr, hfin, hf, h1, h2, h3]
    right
    refine ⟨br2.bits, by rw [b1, b2], ?_⟩
    have l3 : lead < 32 := ReadBits_ok_lt _ _ _ _ h3
    rcases h4 : br3.ReadBits 6 with e | ⟨sig, br4⟩
    · simp [Iter.Next, herr, hfin, hf, h1, h2, h3, h4, l3]
    have l4 : sig < 64 := ReadBits_ok_lt _ _ _ _ h4
    rcases h5 : br4.ReadBits (toInt (sub64 (sub64 64 lead) (sub64 (sub64 64 lead) sig))) with
      e | ⟨bits, br5⟩
    · simp [Iter.Next, herr, hfin, hf, h1, h2, h3, h4, h5, l3]
    · simp only [Iter.Next, herr, hfin, hf, h1, h2, h3, h4, h5]
      simp only [ne_eq, not_true_eq_false, Bool.false_eq_true, or_self, if_false,
        Bool.true_eq_false]
      exact ⟨l3, Or.inr ⟨sig, l4, rfl⟩⟩

theorem inRangeFrom_fits (vs : List Nat) (p : Nat) (h : inRangeFrom p vs = true) :
    fitsFrom p vs = true := by
  induction vs generalizing p with
  | nil => rfl
  | cons v vs ih =>
    simp only [inRangeFrom, fitsFrom, Bool.and_eq_true] at h ⊢
    refine ⟨?_, ih v h.2⟩
    rw [fits_iff]
    have h1 := h.1
    unfold inRange at h1
    simpa using h1

theorem inRangeAll_fits (vs : List Nat) (h : inRangeAll vs = true) : fitsAll vs = true := by
  cases vs with
  | nil => rfl
  | cons v vs => exact inRangeFrom_fits vs v h

theorem Push_window_change (s : Series) (v : Nat)
    (h : (s.Push v).leading ≠ s.leading ∨ (s.Push v).trailing ≠ s.trailing) :
    s.first = false ∧ ∃ tail, record s v = true :: true :: tail := by
  cases hf : s.first
  swap
  · have := Push_first_window s v hf
    rcases h with h | h
    · exact absurd this.1 h
    · exact absurd this.2 h
  refine ⟨rfl, ?_⟩
  by_cases hk : v ^^^ s.val = 0 ∨ (s.leading ≠ noWindow ∧ Clz (v ^^^ s.val) ≥ s.leading ∧
      Ctz (v ^^^ s.val) ≥ s.trailing)
  · have := Push_window_keep s v hf hk
    rcases h with h | h
    · exact absurd this.1 h
    · exact absurd this.2 h
  · have hd : v ^^^ s.val ≠ 0 := fun h => hk (Or.inl h)
    have hw := fun h => hk (Or.inr h)
    unfold record
    simp only [hd, if_false, if_neg hw]
    exact ⟨_, rfl⟩

/-- `Push` carries the finished flag along without reading it. -/
theorem Push_flag (s : Series) (v : Nat) (f : Bool) :
    ({ s with finished := f }).Push v = { s.Push v with finished := f } := by
  unfold Series.Push
  by_cases hf : s.first = true
  · simp [hf]
  · by_cases hd : v ^^^ s.val = 0
    · simp [hf, hd]
    · by_cases hw : s.leading ≠ noWindow ∧ Clz (v ^^^ s.val) ≥ s.leading ∧
          Ctz (v ^^^ s.val) ≥ s.trailing
      · simp only [hf, hd, if_false, if_pos hw]
        simp at hf
        simp [hf]
      · simp only [hf, hd, if_false, if_neg hw]
        simp at hf
        simp [hf]

/-! ## Windows, ranges and the finished flag -/

set_option maxRecDepth 100000 in
/-- C13 (as stated, refuted): after pushing 12 and the next double above 12 the encoder's
window is `(63, 0)`, and the iterator after two calls of `Next` has `(31, 32)`; after
pushing the patterns 0 and 0x8000000000000001 the encoder's window is `(0, 0)` and the
iterator's is `(0, 64)`. -/
theorem window_disagreement :
    ((pushAll New [bits12, bits12 + 1]).leading ≠ noWindow ∧
      ((pushAll New [bits12, bits12 + 1]).leading,
        (pushAll New [bits12, bits12 + 1]).trailing) = (63, 0) ∧
      (pushAll New [bits12, bits12 + 1]).Finish.Iter.map
        (fun it => ((nextN 2 it).leading, (nextN 2 it).trailing)) = some (31, 32)) ∧
    ((pushAll New [0, 0x8000000000000001]).leading ≠ noWindow ∧
      ((pushAll New [0, 0x8000000000000001]).leading,
        (pushAll New [0, 0x8000000000000001]).trailing) = (0, 0) ∧
      (pushAll New [0, 0x8000000000000001]).Finish.Iter.map
        (fun it => ((nextN 2 it).leading, (nextN 2 it).trailing)) = some (0, 64)) := by
  constructor <;> decide

set_option maxRecDepth 100000 in
/-- C14 (as stated, refuted): a `Push` after `Finish` is not rejected: pushing 24 after
pushing 12 and finishing changes the state, sets the value and adds a ninth byte. -/
theorem push_after_finish_writes :
    (New.Push bits12).Finish.Push bits24 ≠ (New.Push bits12).Finish ∧
      (New.Push bits12).Finish.Bytes.length = 8 ∧
      ((New.Push bits12).Finish.Push bits24).Bytes.length = 9 ∧
      ((New.Push bits12).Finish.Push bits24).val = bits24 := by
  decide

/-- C14 (amended): `Push` never looks at the finished flag: after `Finish` it does
exactly what it does on the same series with the flag cleared, writing its record and
updating the state, and only the flag stays set. -/
theorem push_after_finish_unchecked (s : Series) (v : Nat) :
    s.Finish.Push v = { ({ s.Finish with finished := false }).Push v with finished := true } ∧
      (s.Finish.Push v).finished = true := by
  have hfin : s.Finish.finished = true := by
    unfold Series.Finish
    cases h : s.finished <;> simp [h]
  refine ⟨?_, by rw [(Push_fields s.Finish v).2.2, hfin]⟩
  have h := Push_flag s.Finish v false
  rw [h]
  have h2 := Push_fields s.Finish v
  generalize s.Finish.Push v = t at h2
  obtain ⟨val, leading, trailing, bw, first, finished⟩ := t
  simp only at h2
  rw [h2.2.2, hfin]

/-- C16: for every non-empty sequence of 64-bit patterns whose nonzero deltas all have
`clz <= 31` and `clz + ctz >= 1`, pushing the values, `Finish` and one `Next` per value
returns true every time with `Err()` nil and `Values()` the pushed pattern, in order. -/
theorem roundtrip_within_field_ranges (vs : List Nat) (hne : vs ≠ [])
    (hvs : ∀ v ∈ vs, v < 2 ^ 64) (hrange : inRangeAll vs = true) :
    decode vs vs.length = some (vs.map (fun v => (true, v, none))) := by
  obtain ⟨it0, h1, h2, _⟩ :=
    decode_fits_list vs hne hvs (fitsAll_headersFit vs (inRangeAll_fits vs hrange))
  unfold decode
  rw [h1]
  simp only [Option.map_some', h2]

set_option maxRecDepth 100000 in
theorem roundtrip_within_field_ranges_witness :
    example8 ≠ [] ∧ (∀ v ∈ example8, v < 2 ^ 64) ∧ inRangeAll example8 = true ∧
      decode example8 example8.length = some (example8.map (fun v => (true, v, none))) :=
  ⟨by decide, by decide, by decide,
    roundtrip_within_field_ranges example8 (by decide) (by decide) (by decide)⟩

/-! ## Field widths -/

theorem width_wrap (lead sig : Nat) (hl : lead < 32) (hs : sig < 64) :
    toInt (sub64 (sub64 64 lead) (sub64 (sub64 64 lead) sig)) = (sig : Int) := by
  unfold toInt sub64
  have h : (64 + 18446744073709551616 - lead % 18446744073709551616) %
      18446744073709551616 = 64 - lead := by omega
  rw [h]
  by_cases hc : sig ≤ 64 - lead
  · have h2 : (64 - lead + 18446744073709551616 - sig % 18446744073709551616) %
        18446744073709551616 = 64 - lead - sig := by omega
    rw [h2]
    have h3 : (64 - lead + 18446744073709551616 - (64 - lead - sig) % 18446744073709551616) %
        18446744073709551616 = sig := by omega
    rw [h3]
    have h4 : sig % 18446744073709551616 = sig := by omega
    rw [h4, if_pos (by omega)]
  · have h2 : (64 - lead + 18446744073709551616 - sig % 18446744073709551616) %
        18446744073709551616 = 18446744073709551616 - (sig - (64 - lead)) := by omega
    rw [h2]
    have h3 : (64 - lead + 18446744073709551616 -
        (18446744073709551616 - (sig - (64 - lead))) % 18446744073709551616) %
        18446744073709551616 = sig := by omega
    rw [h3]
    have h4 : sig % 18446744073709551616 = sig := by omega
    rw [h4, if_pos (by omega)]

theorem width_initial : toInt (sub64 (sub64 64 0) 0) = 64 := by decide

/-- Every iterator reached from `NewIterator` by calls of `Next` has recorded an error
or holds a window that is the initial one or comes from a new-window header. -/
theorem Next_DecWindow (it : Iter) (h : it.err ≠ none ∨ DecWindow it) :
    it.Next.2.err ≠ none ∨ DecWindow it.Next.2 := by
  rcases Next_window it with hw | ⟨tail, _, hl, hr⟩
  · by_cases he : it.err = none
    · have hd := h.resolve_left (by simpa using he)
      right
      unfold DecWindow at hd ⊢
      rw [hw.1, hw.2]
      exact hd
    · left
      have : it.Next = (false, it) := by
        unfold Iter.Next
        rw [if_pos (Or.inl he)]
      rw [this]
      exact he
  · rcases hr with hr | ⟨sig, hs, ht⟩
    · exact Or.inl hr
    · exact Or.inr (Or.inr ⟨hl, sig, hs, ht⟩)

theorem nextN_DecWindow (n : Nat) (it : Iter) (h : it.err ≠ none ∨ DecWindow it) :
    (nextN n it).err ≠ none ∨ DecWindow (nextN n it) := by
  induction n generalizing it with
  | zero => exact h
  | succ n ih => exact ih _ (Next_DecWindow it h)

/-! ## The payload of a record -/

theorem pushAll_first (vs : List Nat) (hne : vs ≠ []) : (pushAll New vs).first = false := by
  cases vs with
  | nil => exact absurd rfl hne
  | cons v0 vs =>
    have h1 := Push_first_stream New v0 rfl (by decide)
    have hfl := Push_fields New v0
    exact (pushAll_stream vs (New.Push v0) hfl.2.1 h1.2).2.2.1

/-- C17: in every state reached from `New()` by pushes, a `Push` with nonzero delta `d`
uses a window `(l, t)` with `1 <= 64 - l - t <= 64`; the payload it writes, the low
`64 - l - t` bits of `d >> t`, shifted left by `t` is `d` again, and XOR-ed into the
previous pattern it gives the pushed pattern. -/
theorem payload_lossless (vs : List Nat) (hne : vs ≠ []) (hvs : ∀ x ∈ vs, x < 2 ^ 64)
    (v : Nat) (hv : v < 2 ^ 64) (hd : v ^^^ (pushAll New vs).val ≠ 0) :
    1 ≤ 64 - (payloadWindow (pushAll New vs) v).1 - (payloadWindow (pushAll New vs) v).2 ∧
      64 - (payloadWindow (pushAll New vs) v).1 - (payloadWindow (pushAll New vs) v).2 ≤ 64 ∧
      (payloadWindow (pushAll New vs) v).1 + (payloadWindow (pushAll New vs) v).2 ≤ 63 ∧
      (∃ header, ((pushAll New vs).Push v).bw.stream =
        (pushAll New vs).bw.stream ++ header ++
          bitsMSB ((v ^^^ (pushAll New vs).val) >>> (payloadWindow (pushAll New vs) v).2)
            (64 - (payloadWindow (pushAll New vs) v).1 -
              (payloadWindow (pushAll New vs) v).2)) ∧
      shl64 (((v ^^^ (pushAll New vs).val) >>> (payloadWindow (pushAll New vs) v).2) %
          2 ^ (64 - (payloadWindow (pushAll New vs) v).1 -
            (payloadWindow (pushAll New vs) v).2))
        (payloadWindow (pushAll New vs) v).2 = v ^^^ (pushAll New vs).val ∧
      (pushAll New vs).val ^^^
        shl64 (((v ^^^ (pushAll New vs).val) >>> (payloadWindow (pushAll New vs) v).2) %
            2 ^ (64 - (payloadWindow (pushAll New vs) v).1 -
              (payloadWindow (pushAll New vs) v).2))
          (payloadWindow (pushAll New vs) v).2 = v := by
  have hf := pushAll_first vs hne
  have hp := (pushAll_New_wf vs).1
  have hval : (pushAll New vs).val < 2 ^ 64 := by
    rw [pushAll_val vs New hne]
    exact hvs _ (List.getLast_mem hne)
  generalize pushAll New vs = s at hf hp hval hd ⊢
  have hd64 : v ^^^ s.val < 2 ^ 64 := Nat.xor_lt_two_pow hv hval
  have hLT := Clz_add_Ctz _ hd hd64
  have hst := Push_stream s v hf hp
  have hundo := xor_undo v s.val
  by_cases hw : s.leading ≠ noWindow ∧ Clz (v ^^^ s.val) ≥ s.leading ∧
      Ctz (v ^^^ s.val) ≥ s.trailing
  · have hwin : payloadWindow s v = (s.leading, s.trailing) := by
      unfold payloadWindow; rw [if_pos hw]
    rw [hwin]
    simp only []
    have hsum : s.leading + s.trailing ≤ 63 := by omega
    have hlt : v ^^^ s.val < 2 ^ (64 - s.leading) :=
      Nat.lt_of_lt_of_le (lt_two_pow_Clz _ hd64)
        (Nat.pow_le_pow_right (by decide) (by omega))
    have hdvd : 2 ^ s.trailing ∣ v ^^^ s.val :=
      Nat.dvd_trans (Nat.pow_dvd_pow 2 hw.2.2) (two_pow_Ctz_dvd _)
    have hpay := payload_exact _ _ _ hlt hdvd hsum
    have hshr : shr64 (v ^^^ s.val) s.trailing = (v ^^^ s.val) >>> s.trailing := by
      unfold shr64; rw [if_neg (by omega)]
    rw [hshr] at hpay
    refine ⟨by omega, by omega, hsum, ⟨[true, false], ?_⟩, ?_, ?_⟩
    · rw [hst.1]
      unfold record
      simp only [hd, if_false, if_pos hw]
      rw [width_small _ _ (by omega), hshr, List.append_assoc]
    · rw [hpay.1, hpay.2]
    · rw [hpay.1, hpay.2, hundo]
  · have hwin : payloadWindow s v = (Clz (v ^^^ s.val), Ctz (v ^^^ s.val)) := by
      unfold payloadWindow; rw [if_neg hw]
    rw [hwin]
    simp only []
    have hpay := payload_exact _ _ _ (lt_two_pow_Clz _ hd64) (two_pow_Ctz_dvd _) hLT
    have hshr : shr64 (v ^^^ s.val) (Ctz (v ^^^ s.val)) =
        (v ^^^ s.val) >>> Ctz (v ^^^ s.val) := by
      unfold shr64; rw [if_neg (by omega)]
    rw [hshr] at hpay
    have hsig := sigbits_eq _ hd hd64
    refine ⟨by omega, by omega, hLT,
      ⟨[true, true] ++ bitsMSB (Clz (v ^^^ s.val)) 5 ++
        bitsMSB (64 - Clz (v ^^^ s.val) - Ctz (v ^^^ s.val)) 6, ?_⟩, ?_, ?_⟩
    · rw [hst.1]
      unfold record
      simp only [hd, if_false, if_neg hw]
      rw [hsig, toInt_small _ (by have : (2:Nat) ^ 63 = 9223372036854775808 := by norm_num
                                  omega), hshr]
      simp
    · rw [hpay.1, hpay.2]
    · rw [hpay.1, hpay.2, hundo]

set_option maxRecDepth 100000 in
theorem payload_lossless_witness :
    [bits12, bits24, bits13] ≠ [] ∧ (∀ x ∈ [bits12, bits24, bits13], x < 2 ^ 64) ∧
      bits24 < 2 ^ 64 ∧ bits24 ^^^ (pushAll New [bits12, bits24, bits13]).val ≠ 0 ∧
      payloadWindow (pushAll New [bits12, bits24, bits13]) bits24 = (11, 49) ∧
      (pushAll New [bits12, bits24, bits13]).val ^^^
        shl64 (((bits24 ^^^ (pushAll New [bits12, bits24, bits13]).val) >>>
            (payloadWindow (pushAll New [bits12, bits24, bits13]) bits24).2) %
            2 ^ (64 - (payloadWindow (pushAll New [bits12, bits24, bits13]) bits24).1 -
              (payloadWindow (pushAll New [bits12, bits24, bits13]) bits24).2))
          (payloadWindow (pushAll New [bits12, bits24, bits13]) bits24).2 = bits24 :=
  ⟨by decide, by decide, by decide, by decide, by decide,
    (payload_lossless [bits12, bits24, bits13] (by decide) (by decide) bits24 (by decide)
      (by decide)).2.2.2.2.2⟩

/-! ## Staying in step when the leading field wraps -/

theorem wideRecord_new (s : Series) (v : Nat) (hn : wideRecord s v = false)
    (hd : v ^^^ s.val ≠ 0)
    (hw : ¬ (s.leading ≠ noWindow ∧ Clz (v ^^^ s.val) ≥ s.leading ∧
      Ctz (v ^^^ s.val) ≥ s.trailing)) :
    ¬ (Clz (v ^^^ s.val) = 0 ∧ Ctz (v ^^^ s.val) = 0) := by
  intro h0
  have h1 : wideRecord s v = true := by
    unfold wideRecord
    rw [decide_eq_true hd, decide_eq_false hw, decide_eq_true h0]
    rfl
  rw [h1] at hn
  exact absurd hn (by decide)

theorem Push_EncNarrow (s : Series) (v : Nat) (hs : EncNarrow s) (hv : v < 2 ^ 64)
    (hn : wideRecord s v = false) : EncNarrow (s.Push v) := by
  obtain ⟨hf, hval, hp, hwin⟩ := hs
  have hfl := Push_fields s v
  have hst := Push_stream s v hf hp
  refine ⟨hfl.2.1, by rw [hfl.1]; exact hv, hst.2, ?_⟩
  by_cases hk : v ^^^ s.val = 0 ∨ (s.leading ≠ noWindow ∧ Clz (v ^^^ s.val) ≥ s.leading ∧
      Ctz (v ^^^ s.val) ≥ s.trailing)
  · have := Push_window_keep s v hf hk
    rw [this.1, this.2]; exact hwin
  · have hd : v ^^^ s.val ≠ 0 := fun h => hk (Or.inl h)
    have hw := fun h => hk (Or.inr h)
    have := Push_window_new s v hf hd hw
    rw [this.1, this.2]
    have hd64 : v ^^^ s.val < 2 ^ 64 := Nat.xor_lt_two_pow hv hval
    have h2 := Clz_add_Ctz _ hd hd64
    have h3 := wideRecord_new s v hn hd hw
    exact Or.inr ⟨h2, by omega⟩

/-- One record, the iterator staying in step: `Next` returns true and consumes exactly
the record, whatever the value it decodes. -/
theorem Next_record_sync (s : Series) (it : Iter) (v : Nat) (rest : List Bool)
    (hs : EncNarrow s) (ha : InSync s it) (hv : v < 2 ^ 64)
    (hn : wideRecord s v = false) (hb : it.br.bits = record s v ++ rest) :
    it.Next.1 = true ∧ it.Next.2.br.bits = rest ∧ InSync (s.Push v) it.Next.2 := by
  obtain ⟨hf, hval, hp, hwin⟩ := hs
  obtain ⟨a1, a2, a3, a5⟩ := ha
  have hd64 : v ^^^ s.val < 2 ^ 64 := Nat.xor_lt_two_pow hv hval
  by_cases hd : v ^^^ s.val = 0
  · have hwk := Push_window_keep s v hf (Or.inl hd)
    have hrec : record s v = [false] := by unfold record; simp [hd]
    rw [hrec] at hb
    rw [Next_zero it rest a1 a2 a3 hb]
    refine ⟨rfl, rfl, a1, a2, a3, ?_⟩
    rw [hwk.1, hwk.2]; exact a5
  · by_cases hw : s.leading ≠ noWindow ∧ Clz (v ^^^ s.val) ≥ s.leading ∧
        Ctz (v ^^^ s.val) ≥ s.trailing
    · have hwk := Push_window_keep s v hf (Or.inr hw)
      obtain ⟨hLT, _⟩ := hwin.resolve_left hw.1
      obtain ⟨e1, e2⟩ := a5 hw.1
      have hrec : record s v = [true, false] ++
          bitsMSB (shr64 (v ^^^ s.val) s.trailing) (64 - s.leading - s.trailing) := by
        unfold record
        simp only [hd, if_false, if_pos hw]
        rw [width_small _ _ (by omega)]
      rw [hrec] at hb
      rw [Next_reuse it _ _ rest a1 a2 a3 e1 hb]
      refine ⟨rfl, rfl, a1, a2, a3, ?_⟩
      rw [hwk.1, hwk.2]; exact a5
    · have hwn := Push_window_new s v hf hd hw
      have hLT := Clz_add_Ctz _ hd hd64
      have hsig := sigbits_eq _ hd hd64
      have hnw := wideRecord_new s v hn hd hw
      have hrec : record s v = [true, true] ++ bitsMSB (Clz (v ^^^ s.val) % 32) 5 ++
          bitsMSB (64 - Clz (v ^^^ s.val) - Ctz (v ^^^ s.val)) 6 ++
          bitsMSB (shr64 (v ^^^ s.val) (Ctz (v ^^^ s.val)))
            (64 - Clz (v ^^^ s.val) - Ctz (v ^^^ s.val)) := by
        unfold record
        simp only [hd, if_false, if_neg hw]
        rw [hsig, toInt_small _ (by have : (2:Nat) ^ 63 = 9223372036854775808 := by norm_num
                                    omega)]
        have h5 := bitsMSB_mod (Clz (v ^^^ s.val)) 5
        have e5 : (2:Nat) ^ 5 = 32 := by norm_num
        rw [e5] at h5
        rw [h5]
        simp
      rw [hrec] at hb
      have hL : Clz (v ^^^ s.val) % 32 < 32 := Nat.mod_lt _ (by decide)
      have hS : 64 - Clz (v ^^^ s.val) - Ctz (v ^^^ s.val) < 64 := by omega
      have hwrap := width_wrap _ _ hL hS
      have hW : (toInt (sub64 (sub64 64 (Clz (v ^^^ s.val) % 32))
          (sub64 (sub64 64 (Clz (v ^^^ s.val) % 32))
            (64 - Clz (v ^^^ s.val) - Ctz (v ^^^ s.val))))).toNat =
          64 - Clz (v ^^^ s.val) - Ctz (v ^^^ s.val) := by
        rw [hwrap]; simp
      rw [Next_new it _ _ _ rest a1 a2 a3 hL hS _ hW hb]
      refine ⟨rfl, rfl, a1, a2, a3, ?_⟩
      intro _
      rw [hwn.1, hwn.2]
      refine ⟨hW, ?_⟩
      intro h31
      have hmod : Clz (v ^^^ s.val) % 32 = Clz (v ^^^ s.val) := Nat.mod_eq_of_lt (by omega)
      refine ⟨hmod, ?_⟩
      show sub64 (sub64 64 (Clz (v ^^^ s.val) % 32))
        (64 - Clz (v ^^^ s.val) - Ctz (v ^^^ s.val)) = Ctz (v ^^^ s.val)
      rw [hmod, sub64_small 64 _ (by omega) (by norm_num), sub64_small _ _ (by omega)
        (by have : (2:Nat) ^ 64 = 18446744073709551616 := by norm_num
            omega)]
      omega

theorem Next_records_sync (vs : List Nat) (s : Series) (it : Iter) (rest : List Bool)
    (hs : EncNarrow s) (ha : InSync s it) (hvs : ∀ v ∈ vs, v < 2 ^ 64)
    (hn : noWideFrom s vs = true) (hb : it.br.bits = records s vs ++ rest) :
    (trace vs.length it).map (fun r => r.1) = List.replicate vs.length true ∧
      (nextN vs.length it).br.bits = rest ∧
      InSync (pushAll s vs) (nextN vs.length it) ∧ EncNarrow (pushAll s vs) := by
  induction vs generalizing s it with
  | nil =>
    simp only [records, List.nil_append] at hb
    exact ⟨rfl, hb, ha, hs⟩
  | cons v vs ih =>
    have hv : v < 2 ^ 64 := hvs v (List.mem_cons_self _ _)
    simp only [noWideFrom, Bool.and_eq_true, Bool.not_eq_true'] at hn
    simp only [records, List.append_assoc] at hb
    have h1 := Next_record_sync s it v (records (s.Push v) vs ++ rest) hs ha hv hn.1 hb
    have h2 := Push_EncNarrow s v hs hv hn.1
    have h3 := ih (s.Push v) it.Next.2 h2 h1.2.2
      (fun w hw => hvs w (List.mem_cons_of_mem _ hw)) hn.2 h1.2.1
    refine ⟨?_, h3.2.1, h3.2.2.1, h3.2.2.2⟩
    simp only [List.length_cons, trace, List.map_cons, h3.1, h1.1, List.replicate_succ]

/-- Once the window is `(0, 0)` it is never replaced: every later delta lies inside it. -/
theorem pushAll_wide_absorbs (vs : List Nat) (s : Series) (hf : s.first = false)
    (hl : s.leading = 0) (ht : s.trailing = 0) :
    (pushAll s vs).leading = 0 ∧ (pushAll s vs).trailing = 0 := by
  induction vs generalizing s with
  | nil => exact ⟨hl, ht⟩
  | cons v vs ih =>
    have hk : v ^^^ s.val = 0 ∨ (s.leading ≠ noWindow ∧ Clz (v ^^^ s.val) ≥ s.leading ∧
        Ctz (v ^^^ s.val) ≥ s.trailing) := by
      right
      rw [hl, ht]
      exact ⟨by decide, Nat.zero_le _, Nat.zero_le _⟩
    have hw := Push_window_keep s v hf hk
    exact ih (s.Push v) (Push_fields s v).2.1 (by rw [hw.1, hl]) (by rw [hw.2, ht])

theorem noWide_of_final (vs : List Nat) (s : Series) (hf : s.first = false)
    (h : ¬ ((pushAll s vs).leading = 0 ∧ (pushAll s vs).trailing = 0)) :
    noWideFrom s vs = true := by
  induction vs generalizing s with
  | nil => rfl
  | cons v vs ih =>
    have hfl := Push_fields s v
    simp only [noWideFrom, Bool.and_eq_true, Bool.not_eq_true']
    refine ⟨?_, ih (s.Push v) hfl.2.1 h⟩
    cases hwide : wideRecord s v
    · rfl
    · exfalso
      unfold wideRecord at hwide
      simp only [Bool.and_eq_true, decide_eq_true_eq, Bool.not_eq_true',
        decide_eq_false_iff_not] at hwide
      obtain ⟨⟨hd, hw⟩, h0⟩ := hwide
      have hwn := Push_window_new s v hf hd hw
      exact h (pushAll_wide_absorbs vs (s.Push v) hfl.2.1 (by rw [hwn.1, h0.1])
        (by rw [hwn.2, h0.2]))

/-- After `k` pushes and `k` calls of `Next` on the iterator over the whole finished
stream, the iterator is in step with the encoder, provided the encoder's window after
the `k` pushes is not `(0, 0)`. -/
theorem InSync_prefix (v0 : Nat) (pre suf : List Nat) (hv0 : v0 < 2 ^ 64)
    (hvs : ∀ v ∈ pre, v < 2 ^ 64)
    (h : ¬ ((pushAll New (v0 :: pre)).leading = 0 ∧ (pushAll New (v0 :: pre)).trailing = 0)) :
    ∃ it0, (pushAll New (v0 :: (pre ++ suf))).Finish.Iter = some it0 ∧
      InSync (pushAll New (v0 :: pre)) (nextN (pre.length + 1) it0) := by
  obtain ⟨it0, h0, hval, hl, ht, hfirst, hfin, herr, hbits⟩ := Iter_bits v0 (pre ++ suf) hv0
  refine ⟨it0, h0, ?_⟩
  have h1 := Push_first_stream New v0 rfl (by decide)
  have hfl := Push_fields New v0
  have hwin := Push_first_window New v0 rfl
  have hs1 : EncNarrow (New.Push v0) :=
    ⟨hfl.2.1, by rw [hfl.1]; exact hv0, h1.2, Or.inl hwin.1⟩
  have hn := Next_first it0 hfirst herr hfin
  have hag : InSync (New.Push v0) it0.Next.2 := by
    rw [hn]
    exact ⟨rfl, herr, hfin, fun h => absurd hwin.1 h⟩
  have hb : it0.Next.2.br.bits = records (New.Push v0) pre ++
      (records (pushAll (New.Push v0) pre) suf ++
        List.replicate (padding (pushAll New (v0 :: (pre ++ suf))).bw.stream.length)
          false) := by
    rw [hn]
    simp only []
    rw [hbits, records_append, List.append_assoc]
  have hnw := noWide_of_final pre (New.Push v0) hfl.2.1 h
  exact (Next_records_sync pre (New.Push v0) it0.Next.2 _ hs1 hag hvs hnw hb).2.2.1

theorem Next_leading_lt (it : Iter) (h : it.leading < 32) : it.Next.2.leading < 32 := by
  rcases Next_window it with hw | ⟨_, _, hl, _⟩
  · rw [hw.1]; exact h
  · exact hl

theorem nextN_leading_lt (n : Nat) (it : Iter) (h : it.leading < 32) :
    (nextN n it).leading < 32 := by
  induction n generalizing it with
  | zero => exact h
  | succ n ih => exact ih _ (Next_leading_lt it h)

/-- C13 (amended): for every sequence of 64-bit patterns and every `k >= 1`, after `k`
pushes and `k` calls of `Next` on the iterator over the finished stream, the iterator's
`(leading, trailing)` equals the encoder's whenever the encoder has established a window
`(L, T)` that the header fields can carry, `L <= 31` and `L + T >= 1`; the iterator's
`leading` is always below 32; and on either side, for any input, the pair changes only
when a record starting with the bits 1, 1 is written or read. -/
theorem window_agreement_carried (vs : List Nat) (k : Nat) (hk1 : 1 ≤ k)
    (hk : k ≤ vs.length) (hvs : ∀ v ∈ vs, v < 2 ^ 64) :
    (∃ it0, (pushAll New vs).Finish.Iter = some it0 ∧ (nextN k it0).leading < 32 ∧
      ((pushAll New (vs.take k)).leading ≠ noWindow →
        (pushAll New (vs.take k)).leading ≤ 31 →
        1 ≤ (pushAll New (vs.take k)).leading + (pushAll New (vs.take k)).trailing →
        (nextN k it0).leading = (pushAll New (vs.take k)).leading ∧
          (nextN k it0).trailing = (pushAll New (vs.take k)).trailing)) ∧
      (∀ (s : Series) (v : Nat),
        (s.Push v).leading ≠ s.leading ∨ (s.Push v).trailing ≠ s.trailing →
          s.first = false ∧ ∃ tail, record s v = true :: true :: tail) ∧
      (∀ it : Iter, it.Next.2.leading ≠ it.leading ∨ it.Next.2.trailing ≠ it.trailing →
        ∃ tail, it.br.bits = true :: true :: tail) := by
  refine ⟨?_, Push_window_change, ?_⟩
  · cases vs with
    | nil => simp at hk; omega
    | cons v0 rest =>
      obtain ⟨j, rfl⟩ : ∃ j, k = j + 1 := ⟨k - 1, by omega⟩
      simp only [List.length_cons] at hk
      have hsplit : rest = rest.take j ++ rest.drop j := (List.take_append_drop j rest).symm
      have hlen : (rest.take j).length = j := by
        rw [List.length_take]; omega
      have htake : (v0 :: rest).take (j + 1) = v0 :: rest.take j := rfl
      rw [htake]
      obtain ⟨it0, h0, hval, hl, ht, hfirst, hfin, herr, hbits⟩ :=
        Iter_bits v0 rest (hvs v0 (List.mem_cons_self _ _))
      refine ⟨it0, h0, nextN_leading_lt _ it0 (by rw [hl]; decide), ?_⟩
      intro hne h31 h1
      have hnz : ¬ ((pushAll New (v0 :: rest.take j)).leading = 0 ∧
          (pushAll New (v0 :: rest.take j)).trailing = 0) := by
        intro h; omega
      obtain ⟨it1, h0', hsync⟩ := InSync_prefix v0 (rest.take j) (rest.drop j)
        (hvs v0 (List.mem_cons_self _ _))
        (fun w hw => hvs w (List.mem_cons_of_mem _ (List.mem_of_mem_take hw))) hnz
      rw [← hsplit, h0] at h0'
      simp only [Option.some.injEq] at h0'
      subst h0'
      rw [hlen] at hsync
      exact (hsync.2.2.2 hne).2 h31
  · intro it h
    rcases Next_window it with hw | ⟨tail, hb, _⟩
    · rcases h with h | h
      · exact absurd hw.1 h
      · exact absurd hw.2 h
    · exact ⟨tail, hb⟩

set_option maxRecDepth 100000 in
theorem window_agreement_carried_witness :
    1 ≤ 3 ∧ 3 ≤ [0, 1, 0x10000000001].length ∧ headersFit [0, 1, 0x10000000001] = false ∧
      ((pushAll New ([0, 1, 0x10000000001].take 3)).leading,
        (pushAll New ([0, 1, 0x10000000001].take 3)).trailing) = (23, 40) ∧
      ∃ it0, (pushAll New [0, 1, 0x10000000001]).Finish.Iter = some it0 ∧
        (nextN 3 it0).leading < 32 ∧
        ((pushAll New ([0, 1, 0x10000000001].take 3)).leading ≠ noWindow →
          (pushAll New ([0, 1, 0x10000000001].take 3)).leading ≤ 31 →
          1 ≤ (pushAll New ([0, 1, 0x10000000001].take 3)).leading +
            (pushAll New ([0, 1, 0x10000000001].take 3)).trailing →
          (nextN 3 it0).leading = (pushAll New ([0, 1, 0x10000000001].take 3)).leading ∧
            (nextN 3 it0).trailing =
              (pushAll New ([0, 1, 0x10000000001].take 3)).trailing) :=
  ⟨by decide, by decide, by decide, by decide,
    (window_agreement_carried [0, 1, 0x10000000001] 3 (by decide) (by decide)
      (by decide)).1⟩

/-! ## The width of the value field -/

theorem Next_window_read (it : Iter)
    (h : it.Next.2.leading ≠ it.leading ∨ it.Next.2.trailing ≠ it.trailing) :
    atNewWindow it := by
  have hfirst : it.first = false := by
    rcases Next_cases it with h1 | ⟨_, _, h1⟩ | ⟨_, hf, _⟩ | ⟨_, hf, _⟩
    · rw [h1] at h; simp at h
    · rw [h1] at h; simp at h
    · exact hf
    · exact hf
  rcases Next_window it with hw | ⟨tail, hb, _⟩
  · rcases h with h | h
    · exact absurd hw.1 h
    · exact absurd hw.2 h
  · exact ⟨hfirst, tail, hb⟩

/-- Until a call reads a new-window record the iterator keeps its initial window. -/
theorem nextN_window_initial (n : Nat) (it0 : Iter)
    (h : ∀ j, j < n → ¬ atNewWindow (nextN j it0)) :
    (nextN n it0).leading = it0.leading ∧ (nextN n it0).trailing = it0.trailing := by
  induction n with
  | zero => exact ⟨rfl, rfl⟩
  | succ n ih =>
    have h1 := ih (fun j hj => h j (by omega))
    have h2 := h n (by omega)
    rw [nextN_succ_last]
    by_cases hl : (nextN n it0).Next.2.leading = (nextN n it0).leading
    · by_cases ht : (nextN n it0).Next.2.trailing = (nextN n it0).trailing
      · exact ⟨by rw [hl, h1.1], by rw [ht, h1.2]⟩
      · exact absurd (Next_window_read _ (Or.inr ht)) h2
    · exact absurd (Next_window_read _ (Or.inl hl)) h2

/-- On a reuse record `Next` passes `64 - leading - trailing`, computed in wrapping
unsigned arithmetic, to the bit reader. -/
theorem Next_reuse_eq (it : Iter) (rest : List Bool) (hf : it.first = false)
    (he : it.err = none) (hfin : it.finished = false)
    (hb : it.br.bits = true :: false :: rest) :
    it.Next = it.readValue { bits := rest } it.leading it.trailing
      (toInt (sub64 (sub64 64 it.leading) it.trailing)) := by
  unfold Iter.Next Iter.readValue
  rw [ReadBit_eq it.br true (false :: rest) hb]
  simp only [hf, he, hfin]
  rw [ReadBit_eq { bits := false :: rest } false rest rfl]
  simp only []
  rcases h3 : ({ bits := rest } : BitReader).ReadBits
      (toInt (sub64 (sub64 64 it.leading) it.trailing)) with e | ⟨bits, br3⟩
  · simp
  · simp

/-- On a new-window record `Next` passes `64 - leading - trailing` for the window just
read from the header to the bit reader. -/
theorem Next_new_eq (it : Iter) (rest : List Bool) (lead sig : Nat) (br3 br4 : BitReader)
    (hf : it.first = false) (he : it.err = none) (hfin : it.finished = false)
    (hb : it.br.bits = true :: true :: rest)
    (h5 : ({ bits := rest } : BitReader).ReadBits 5 = .ok (lead, br3))
    (h6 : br3.ReadBits 6 = .ok (sig, br4)) :
    it.Next = it.readValue br4 lead (sub64 (sub64 64 lead) sig)
      (toInt (sub64 (sub64 64 lead) (sub64 (sub64 64 lead) sig))) := by
  unfold Iter.Next Iter.readValue
  rw [ReadBit_eq it.br true (true :: rest) hb]
  simp only [hf, he, hfin]
  rw [ReadBit_eq { bits := true :: rest } true rest rfl]
  simp only []
  rw [h5]
  simp only []
  rw [h6]
  simp only []
  rcases h7 : br4.ReadBits (toInt (sub64 (sub64 64 lead) (sub64 (sub64 64 lead) sig))) with
    e | ⟨bits, br5⟩
  · simp
  · simp

/-- C18: on any byte buffer and after any number of calls, the width `Next` passes to the
bit reader for the value bits, `64 - leading - trailing` in wrapping unsigned arithmetic,
is between 0 and 64. On a reuse record `Next` is the read of that many bits, and the
width is 64 when no earlier call has read a new-window record. On a new-window record
with header fields `lead` and `sig`, the wrapping computation gives back `sig` (below
64) whatever `lead` is, and `Next` is the read of `sig` bits. -/
theorem decoder_width_in_range (b : List Nat) (it0 : Iter) (h0 : NewIterator b = .ok it0)
    (n : Nat) (it : Iter) (hit : nextN n it0 = it) (hf : it.first = false)
    (he : it.err = none) :
    (∀ rest, it.br.bits = true :: false :: rest →
      0 ≤ toInt (sub64 (sub64 64 it.leading) it.trailing) ∧
        toInt (sub64 (sub64 64 it.leading) it.trailing) ≤ 64 ∧
        ((∀ j, j < n → ¬ atNewWindow (nextN j it0)) →
          toInt (sub64 (sub64 64 it.leading) it.trailing) = 64) ∧
        it.Next = it.readValue { bits := rest } it.leading it.trailing
          (toInt (sub64 (sub64 64 it.leading) it.trailing))) ∧
      (∀ rest lead sig br3 br4, it.br.bits = true :: true :: rest →
        ({ bits := rest } : BitReader).ReadBits 5 = .ok (lead, br3) →
        br3.ReadBits 6 = .ok (sig, br4) →
        lead < 32 ∧ sig < 64 ∧
          toInt (sub64 (sub64 64 lead) (sub64 (sub64 64 lead) sig)) = (sig : Int) ∧
          it.Next = it.readValue br4 lead (sub64 (sub64 64 lead) sig) (sig : Int)) := by
  have hinit : it0.leading = 0 ∧ it0.trailing = 0 ∧ it0.finished = false := by
    unfold NewIterator at h0
    split at h0
    · exact absurd h0 (by simp)
    · simp only [Except.ok.injEq] at h0
      rw [← h0]
      exact ⟨rfl, rfl, rfl⟩
  have hfin : it.finished = false := by rw [← hit, nextN_finished, hinit.2.2]
  have hinv : it.err ≠ none ∨ DecWindow it := by
    rw [← hit]
    exact nextN_DecWindow n it0 (Or.inr (Or.inl ⟨hinit.1, hinit.2.1⟩))
  have hd := hinv.resolve_left (by simpa using he)
  constructor
  · intro rest hb
    have hrange : 0 ≤ toInt (sub64 (sub64 64 it.leading) it.trailing) ∧
        toInt (sub64 (sub64 64 it.leading) it.trailing) ≤ 64 := by
      rcases hd with ⟨e1, e2⟩ | ⟨e1, sig, e2, e3⟩
      · rw [e1, e2, width_initial]; omega
      · rw [e3, width_wrap _ _ e1 e2]; omega
    refine ⟨hrange.1, hrange.2, ?_, Next_reuse_eq it rest hf he hfin hb⟩
    intro hnone
    have hw := nextN_window_initial n it0 hnone
    rw [hit] at hw
    rw [hw.1, hw.2, hinit.1, hinit.2.1, width_initial]
  · intro rest lead sig br3 br4 hb h5 h6
    have hl : lead < 32 := ReadBits_ok_lt _ _ _ _ h5
    have hs : sig < 64 := ReadBits_ok_lt _ _ _ _ h6
    have hw := width_wrap lead sig hl hs
    refine ⟨hl, hs, hw, ?_⟩
    rw [← hw]
    exact Next_new_eq it rest lead sig br3 br4 hf he hfin hb h5 h6

set_option maxRecDepth 100000 in
theorem decoder_width_in_range_witness :
    ∃ it0, NewIterator [0, 0, 0, 0, 0, 0, 0, 0, 255, 255, 255] = .ok it0 ∧
      (nextN 1 it0).first = false ∧ (nextN 1 it0).err = none ∧
      (nextN 1 it0).br.bits = true :: true :: List.replicate 22 true ∧
      (31 < 32 ∧ 63 < 64 ∧
        toInt (sub64 (sub64 64 31) (sub64 (sub64 64 31) 63)) = ((63 : Nat) : Int) ∧
        (nextN 1 it0).Next =
          (nextN 1 it0).readValue { bits := List.replicate 11 true } 31
            (sub64 (sub64 64 31) 63) ((63 : Nat) : Int)) :=
  ⟨_, NewIterator_ok [0, 0, 0, 0, 0, 0, 0, 0, 255, 255, 255] (by decide), by decide,
    by decide, by decide,
    (decoder_width_in_range [0, 0, 0, 0, 0, 0, 0, 0, 255, 255, 255] _
      (NewIterator_ok [0, 0, 0, 0, 0, 0, 0, 0, 255, 255, 255] (by decide)) 1 _ rfl
      (by decide) (by decide)).2 (List.replicate 22 true) 31 63
      { bits := List.replicate 17 true } { bits := List.replicate 11 true }
      (by decide) (by rfl) (by rfl)⟩

/-! ## A header that does not fit is decoded wrongly -/

theorem headerFits_false (s : Series) (v : Nat) (h : headerFits s v = false) :
    v ^^^ s.val ≠ 0 ∧
      ¬ (s.leading ≠ noWindow ∧ Clz (v ^^^ s.val) ≥ s.leading ∧
        Ctz (v ^^^ s.val) ≥ s.trailing) ∧
      (32 ≤ Clz (v ^^^ s.val) ∨
        sub64 (sub64 64 (Clz (v ^^^ s.val))) (Ctz (v ^^^ s.val)) = 64) := by
  unfold headerFits fits at h
  simp only [Bool.or_eq_false_iff, decide_eq_false_iff_not, beq_eq_false_iff_ne,
    Bool.and_eq_false_iff, ne_eq, Decidable.not_not] at h
  refine ⟨h.2.1, h.1, ?_⟩
  rcases h.2.2 with h1 | h1
  · exact Or.inl (by omega)
  · exact Or.inr h1

/-- When the header of a new-window record does not fit, the iterator, in step until
then, returns a value different from the pushed one. -/
theorem Next_record_overflow (s : Series) (it : Iter) (v : Nat) (rest : List Bool)
    (hs : EncFit s) (ha : Agree s it) (hv : v < 2 ^ 64)
    (hbad : headerFits s v = false) (hb : it.br.bits = record s v ++ rest) :
    it.Next.2.val ≠ v := by
  obtain ⟨hf, hval, hp, hwin⟩ := hs
  obtain ⟨a1, a2, a3, a4, a5⟩ := ha
  obtain ⟨hd, hw, hover⟩ := headerFits_false s v hbad
  have hd64 : v ^^^ s.val < 2 ^ 64 := Nat.xor_lt_two_pow hv hval
  have hundo : s.val ^^^ (v ^^^ s.val) = v := xor_undo v s.val
  have hLT := Clz_add_Ctz _ hd hd64
  have hsig := sigbits_eq _ hd hd64
  have e5 : (2:Nat) ^ 5 = 32 := by norm_num
  have e6 : (2:Nat) ^ 6 = 64 := by norm_num
  have h5 := bitsMSB_mod (Clz (v ^^^ s.val)) 5
  have h6 := bitsMSB_mod (64 - Clz (v ^^^ s.val) - Ctz (v ^^^ s.val)) 6
  rw [e5] at h5
  rw [e6] at h6
  have hrec : record s v = [true, true] ++ bitsMSB (Clz (v ^^^ s.val) % 32) 5 ++
      bitsMSB ((64 - Clz (v ^^^ s.val) - Ctz (v ^^^ s.val)) % 64) 6 ++
      bitsMSB ((v ^^^ s.val) >>> Ctz (v ^^^ s.val))
        (64 - Clz (v ^^^ s.val) - Ctz (v ^^^ s.val)) := by
    unfold record
    simp only [hd, if_false, if_neg hw]
    rw [hsig, toInt_small _ (by have : (2:Nat) ^ 63 = 9223372036854775808 := by norm_num
                                omega)]
    rw [h5, h6]
    unfold shr64
    rw [if_neg (by omega)]
    simp
  rw [hrec] at hb
  have hL : Clz (v ^^^ s.val) % 32 < 32 := Nat.mod_lt _ (by decide)
  have hS : (64 - Clz (v ^^^ s.val) - Ctz (v ^^^ s.val)) % 64 < 64 := Nat.mod_lt _ (by decide)
  have hwrap := width_wrap _ _ hL hS
  rw [hsig] at hover
  rcases hover with h32 | h64
  · -- the 5-bit field holds `clz - 32`: the payload is shifted 32 bits too far
    have hmodS : (64 - Clz (v ^^^ s.val) - Ctz (v ^^^ s.val)) % 64 =
        64 - Clz (v ^^^ s.val) - Ctz (v ^^^ s.val) := Nat.mod_eq_of_lt (by omega)
    have hmodL : Clz (v ^^^ s.val) % 32 = Clz (v ^^^ s.val) - 32 := by omega
    rw [hmodS] at hb hwrap
    have hW : (toInt (sub64 (sub64 64 (Clz (v ^^^ s.val) % 32))
        (sub64 (sub64 64 (Clz (v ^^^ s.val) % 32))
          (64 - Clz (v ^^^ s.val) - Ctz (v ^^^ s.val))))).toNat =
        64 - Clz (v ^^^ s.val) - Ctz (v ^^^ s.val) := by
      rw [hwrap]; simp
    rw [Next_new it _ _ _ rest a1 a2 a3 hL (by omega) _ hW hb]
    simp only []
    have htr : sub64 (sub64 64 (Clz (v ^^^ s.val) % 32))
        (64 - Clz (v ^^^ s.val) - Ctz (v ^^^ s.val)) = Ctz (v ^^^ s.val) + 32 := by
      rw [hmodL, sub64_small 64 _ (by omega) (by norm_num), sub64_small _ _ (by omega)
        (by have : (2:Nat) ^ 64 = 18446744073709551616 := by norm_num
            omega)]
      omega
    have hpay := payload_exact _ _ _ (lt_two_pow_Clz _ hd64) (two_pow_Ctz_dvd _) hLT
    have hshr : shr64 (v ^^^ s.val) (Ctz (v ^^^ s.val)) =
        (v ^^^ s.val) >>> Ctz (v ^^^ s.val) := by
      unfold shr64; rw [if_neg (by omega)]
    rw [hshr] at hpay
    rw [htr, hpay.1, a4]
    intro heq
    have hx := Nat.xor_right_inj.mp (heq.trans hundo.symm)
    -- shl64 (d >> ctz) (ctz + 32) = d * 2 ^ 32
    have hdlt : v ^^^ s.val < 2 ^ 32 :=
      Nat.lt_of_lt_of_le (lt_two_pow_Clz _ hd64) (Nat.pow_le_pow_right (by decide) (by omega))
    have hshl : shl64 ((v ^^^ s.val) >>> Ctz (v ^^^ s.val)) (Ctz (v ^^^ s.val) + 32) =
        (v ^^^ s.val) * 2 ^ 32 := by
      unfold shl64
      rw [if_neg (by omega), Nat.shiftLeft_eq, Nat.shiftRight_eq_div_pow, Nat.pow_add,
        ← Nat.mul_assoc, Nat.div_mul_cancel (two_pow_Ctz_dvd _)]
      apply Nat.mod_eq_of_lt
      have : (2:Nat) ^ 32 = 4294967296 := by norm_num
      omega
    rw [hshl] at hx
    have : (2:Nat) ^ 32 = 4294967296 := by norm_num
    have hpos : 0 < v ^^^ s.val := Nat.pos_of_ne_zero hd
    omega
  · -- 64 significant bits: the 6-bit field holds 0 and no payload bit is read
    have hmodS : (64 - Clz (v ^^^ s.val) - Ctz (v ^^^ s.val)) % 64 = 0 := by omega
    rw [hmodS] at hb hwrap
    have hW : (toInt (sub64 (sub64 64 (Clz (v ^^^ s.val) % 32))
        (sub64 (sub64 64 (Clz (v ^^^ s.val) % 32)) 0))).toNat = 0 := by
      rw [hwrap]; simp
    have hb2 : it.br.bits = [true, true] ++ bitsMSB (Clz (v ^^^ s.val) % 32) 5 ++
        bitsMSB 0 6 ++ bitsMSB 0 0 ++
        (bitsMSB ((v ^^^ s.val) >>> Ctz (v ^^^ s.val))
          (64 - Clz (v ^^^ s.val) - Ctz (v ^^^ s.val)) ++ rest) := by
      rw [hb]; simp [bitsMSB]
    rw [Next_new it _ _ 0 _ a1 a2 a3 hL (by decide) 0 hW hb2]
    simp only []
    have hz : shl64 (0 % 2 ^ 0) (sub64 (sub64 64 (Clz (v ^^^ s.val) % 32)) 0) = 0 := by
      unfold shl64
      split
      · rfl
      · simp
    rw [hz, Nat.xor_zero, a4]
    intro heq
    rw [heq, Nat.xor_self] at hd
    exact hd rfl

theorem first_bad_header (vs : List Nat) (s : Series) (h : headersFitFrom s vs = false) :
    ∃ pre v suf, vs = pre ++ v :: suf ∧ headersFitFrom s pre = true ∧
      headerFits (pushAll s pre) v = false := by
  induction vs generalizing s with
  | nil => exact absurd h (by simp [headersFitFrom])
  | cons v vs ih =>
    cases hv : headerFits s v
    · exact ⟨[], v, vs, rfl, rfl, hv⟩
    · simp only [headersFitFrom, hv, Bool.true_and] at h
      obtain ⟨pre, w, suf, h1, h2, h3⟩ := ih (s.Push v) h
      refine ⟨v :: pre, w, suf, by rw [h1]; rfl, ?_, h3⟩
      simp only [headersFitFrom, hv, h2, Bool.and_self]

/-- The condition of the amended round trip is also necessary: when some new-window
record has a header that does not fit, the values `Next` returns are not the pushed
ones. -/
theorem roundtrip_needs_headers (vs : List Nat) (hvs : ∀ v ∈ vs, v < 2 ^ 64)
    (h : headersFit vs = false) :
    (decode vs vs.length).map (List.map flagValue) ≠ some (vs.map (fun v => (true, v))) := by
  cases vs with
  | nil => exact absurd h (by simp [headersFit])
  | cons v0 rest =>
    obtain ⟨pre, v, suf, hsplit, hpre, hbad⟩ := first_bad_header rest (New.Push v0) h
    subst hsplit
    have hv0 : v0 < 2 ^ 64 := hvs v0 (List.mem_cons_self _ _)
    have hvpre : ∀ w ∈ pre, w < 2 ^ 64 := fun w hw =>
      hvs w (List.mem_cons_of_mem _ (List.mem_append_left _ hw))
    have hvv : v < 2 ^ 64 :=
      hvs v (List.mem_cons_of_mem _ (List.mem_append_right _ (List.mem_cons_self _ _)))
    obtain ⟨it0, h0, hval, hl, ht, hfirst, hfin, herr, hbits⟩ :=
      Iter_bits v0 (pre ++ v :: suf) hv0
    have h1 := Push_first_stream New v0 rfl (by decide)
    have hfl := Push_fields New v0
    have hwin := Push_first_window New v0 rfl
    have hs1 : EncFit (New.Push v0) :=
      ⟨hfl.2.1, by rw [hfl.1]; exact hv0, h1.2, Or.inl hwin.1⟩
    have hn := Next_first it0 hfirst herr hfin
    have hag : Agree (New.Push v0) it0.Next.2 := by
      rw [hn]
      exact ⟨rfl, herr, hfin, by rw [hfl.1]; exact hval, fun h => absurd hwin.1 h⟩
    obtain ⟨tailbits, htail⟩ : ∃ tailbits : List Bool, tailbits =
        records ((pushAll (New.Push v0) pre).Push v) suf ++
          List.replicate
            (padding (pushAll New (v0 :: (pre ++ v :: suf))).bw.stream.length) false :=
      ⟨_, rfl⟩
    have hb : it0.Next.2.br.bits = records (New.Push v0) pre ++
        (record (pushAll (New.Push v0) pre) v ++ tailbits) := by
      rw [hn]
      simp only []
      rw [hbits, records_append, htail]
      simp only [records, List.append_assoc]
    have h3 := Next_records pre (New.Push v0) it0.Next.2 _ hs1 hag hvpre hpre hb
    have hover := Next_record_overflow (pushAll (New.Push v0) pre) _ v tailbits
      h3.2.2.2 h3.2.2.1 hvv hbad h3.2.1
    have hk : nextN pre.length it0.Next.2 = nextN (pre.length + 1) it0 := by
      rw [Nat.add_comm, nextN_add]; rfl
    rw [hk] at hover
    -- the trace at the record that overflows
    have hlen : (v0 :: (pre ++ v :: suf)).length = (pre.length + 1) + (1 + suf.length) := by
      simp; omega
    unfold decode
    rw [h0, hlen]
    simp only [Option.map_some', ne_eq, Option.some.injEq]
    rw [trace_add, List.map_append]
    have hexp : (v0 :: (pre ++ v :: suf)).map (fun x => (true, x)) =
        (v0 :: pre).map (fun x => (true, x)) ++ ((true, v) :: suf.map (fun x => (true, x))) := by
      simp
    rw [hexp]
    intro heq
    have hinj := List.append_inj heq (by simp [trace_length])
    have h2 := hinj.2
    rw [Nat.add_comm 1 suf.length] at h2
    simp only [trace, List.map_cons, List.cons.injEq] at h2
    have h4 := h2.1
    unfold flagValue at h4
    simp only [Prod.mk.injEq] at h4
    exact hover h4.2

end Tsz
